import Mathlib

/-!
Verification development for the MantraOS microkernel core
(`src/kernel/src/{pmm.rs, sched.rs, ipc.rs, arch/x86_64/isr.rs}`,
`src/libs/bootinfo/src/lib.rs`, `src/kernel/src/main.rs`).

The Rust sources are shallowly embedded: machine integers (u64/u32/u16/u8)
become `Nat` with explicit `% 2^w` where wrap-around matters, physical byte
memory becomes a total function `Nat → Nat` (values reduced mod 256 on read),
statics mutated in place are threaded as explicit state, and fallible
operations return `Option`.  A saved `SyscallFrame`, reached in the source
through the `tf_rsp` pointer of a process slot, is modeled by value as the
`frame` field of that slot; only the registers the embedded handlers touch
(rax, rdx, rsi, rdi, rcx) are carried.
-/

set_option maxHeartbeats 1000000
set_option maxRecDepth 10000

/-- Value of `u64::MAX`, the error sentinel for invalid argument / not found. -/
def u64MAX : Nat := 2 ^ 64 - 1

/-- One beyond the largest u64; wrap-around and saturation bound. -/
def U64_CAP : Nat := 2 ^ 64

/-! ## Physical memory and the user page walk (isr.rs) -/

/-- Physical byte memory, as accessed by the kernel through the HHDM.
A total function from physical address to the stored byte. -/
def Mem : Type := Nat → Nat

/-- Store one byte (`core::ptr::write_volatile` through `phys_to_virt_ptr`). -/
def memWrite (m : Mem) (a v : Nat) : Mem :=
  fun x => if x = a then v else m x

/-- Load one byte; the stored value is reduced to the u8 range. -/
def read8 (m : Mem) (a : Nat) : Nat := m a % 256

/-- Load a little-endian u64, as the volatile `u64` read in `rd` does. -/
def read64 (m : Mem) (a : Nat) : Nat :=
  read8 m a
    + read8 m (a + 1) * 0x100
    + read8 m (a + 2) * 0x10000
    + read8 m (a + 3) * 0x1000000
    + read8 m (a + 4) * 0x100000000
    + read8 m (a + 5) * 0x10000000000
    + read8 m (a + 6) * 0x1000000000000
    + read8 m (a + 7) * 0x100000000000000

/-- Physical-address mask `0x000f_ffff_ffff_f000` used by the page walk. -/
def pteMask : Nat := 0x000ffffffffff000

/-- Flag test `(e & (PTE_P | PTE_U)) == (PTE_P | PTE_U)` with `P|U = 5`. -/
def pteOk (e : Nat) : Bool := Nat.land e 5 == 5

/-- Table entry read `rd(table, idx)`: a u64 load at `table + 8*idx`. -/
def rdEntry (m : Mem) (table idx : Nat) : Nat := read64 m (table + 8 * idx)

/-- Embedding of `virt_to_phys_in` (isr.rs): a 4-level page-table walk that
requires P and U at every level.  `user_virt_to_phys` in the source is the
textually identical walk applied to the masked current CR3; the mask is
applied here on entry, so one definition serves both. -/
def virt_to_phys_in (m : Mem) (pml4_phys virt : Nat) : Option Nat :=
  let pml4 := Nat.land pml4_phys pteMask
  let pml4_i := Nat.land (Nat.shiftRight virt 39) 0x1ff
  let pdpt_i := Nat.land (Nat.shiftRight virt 30) 0x1ff
  let pd_i := Nat.land (Nat.shiftRight virt 21) 0x1ff
  let pt_i := Nat.land (Nat.shiftRight virt 12) 0x1ff
  let off := Nat.land virt 0xfff
  let pml4e := rdEntry m pml4 pml4_i
  if !pteOk pml4e then none else
  let pdpt := Nat.land pml4e pteMask
  let pdpte := rdEntry m pdpt pdpt_i
  if !pteOk pdpte then none else
  let pd := Nat.land pdpte pteMask
  let pde := rdEntry m pd pd_i
  if !pteOk pde then none else
  let pt := Nat.land pde pteMask
  let pte := rdEntry m pt pt_i
  if !pteOk pte then none else
  some (Nat.land pte pteMask + off)

/-- Embedding of `user_copy_out_in` (isr.rs): write the bytes of `src` one by
one at consecutive user virtual addresses (`user_ptr.wrapping_add(i)`),
translating each destination byte through the given page tables before the
store.  The write of byte `i` happens before byte `i+1` is translated, so a
translation failure leaves the already written prefix in memory. -/
def user_copy_out_in (m : Mem) (pml4_phys user_ptr : Nat) :
    List Nat → Mem × Option Unit
  | [] => (m, some ())
  | b :: rest =>
    match virt_to_phys_in m pml4_phys user_ptr with
    | none => (m, none)
    | some p =>
      user_copy_out_in (memWrite m p (b % 256)) pml4_phys
        ((user_ptr + 1) % U64_CAP) rest

/-- Embedding of `user_copy_in` (isr.rs): read `n` bytes from consecutive
user virtual addresses through the page tables; all-or-nothing because reads
do not change memory. -/
def user_copy_in (m : Mem) (pml4_phys user_ptr : Nat) : Nat → Option (List Nat)
  | 0 => some []
  | n + 1 =>
    match virt_to_phys_in m pml4_phys user_ptr with
    | none => none
    | some p =>
      match user_copy_in m pml4_phys ((user_ptr + 1) % U64_CAP) n with
      | none => none
      | some rest => some (read8 m p :: rest)

/-! ## Process table and scheduler (sched.rs) -/

/-- `MAX_PROCS` from sched.rs. -/
def MAX_PROCS : Nat := 8

/-- The registers of a saved `SyscallFrame` that the embedded handlers read
or write.  The remaining GPRs and the CPU-pushed tail are never touched by
the modeled code paths. -/
structure Frame where
  rax : Nat
  rdx : Nat
  rsi : Nat
  rdi : Nat
  rcx : Nat

/-- One `Proc` slot from sched.rs.  The saved frame reached through `tf_rsp`
is carried by value in `frame`. -/
structure Proc where
  tf_rsp : Nat
  kstack_top : Nat
  cr3 : Nat
  caps : List Nat
  alive : Bool
  runnable : Bool
  blocked_ep : Nat
  frame : Frame

/-! ## Endpoints (ipc.rs) -/

/-- `MAX_ENDPOINTS` from ipc.rs. -/
def MAX_ENDPOINTS : Nat := 32

/-- `MAX_MSG` from ipc.rs. -/
def MAX_MSG : Nat := 256

/-- `Q_LEN` from ipc.rs. -/
def Q_LEN : Nat := 32

/-- `MAX_WAITERS` from ipc.rs. -/
def MAX_WAITERS : Nat := 8

/-- One message slot (`Msg` in ipc.rs). -/
structure Msg where
  len : Nat
  xfer_ep : Nat
  data : List Nat
deriving DecidableEq

/-- `EMPTY_MSG` from ipc.rs. -/
def EMPTY_MSG : Msg := ⟨0, 0, List.replicate MAX_MSG 0⟩

/-- One `Endpoint` from ipc.rs.  `head`, `tail`, `wait_head` and `wait_tail`
are the raw (unreduced) usize ring counters; `buf` and `waiters` are indexed
by `counter % Q_LEN` resp. `counter % MAX_WAITERS`. -/
structure Endpoint where
  head : Nat
  tail : Nat
  buf : Nat → Msg
  wait_head : Nat
  wait_tail : Nat
  waiters : Nat → Nat

/-- The initial endpoint value from the `ENDPOINTS` static initializer. -/
def emptyEndpoint : Endpoint :=
  ⟨0, 0, fun _ => EMPTY_MSG, 0, 0, fun _ => 0⟩

/-! ## Kernel state -/

/-- The mutable kernel statics the embedded code touches: the process table
and `CURRENT` (sched.rs), the endpoint pool and `NEXT_EP` (ipc.rs),
`MANTRA_NEXT_CR3`, the TSS RSP0 slot, the `INITED` flag, and physical
memory.  Endpoint index `epi` stands for endpoint id `epi + 1`. -/
structure KState where
  procs : Nat → Proc
  current : Nat
  eps : Nat → Endpoint
  next_ep : Nat
  next_cr3 : Nat
  rsp0 : Nat
  inited : Bool
  mem : Mem

/-- Replace the slot of process `pid` (an in-place mutation in the source). -/
def updProc (st : KState) (pid : Nat) (f : Proc → Proc) : KState :=
  { st with procs := fun i => if i = pid then f (st.procs i) else st.procs i }

/-- Replace endpoint at index `epi` (an in-place mutation in the source). -/
def updEp (st : KState) (epi : Nat) (f : Endpoint → Endpoint) : KState :=
  { st with eps := fun i => if i = epi then f (st.eps i) else st.eps i }

/-- Assignment `tf.rax = v` on the current syscall frame. -/
def setRax (st : KState) (v : Nat) : KState :=
  updProc st st.current fun p => { p with frame := { p.frame with rax := v } }

/-- Assignments `tf.rax = v; tf.rdx = w` on the current syscall frame. -/
def setRaxRdx (st : KState) (v w : Nat) : KState :=
  updProc st st.current fun p =>
    { p with frame := { p.frame with rax := v, rdx := w } }

/-- The CR3 register while the current process runs (read by
`current_user_pml4`); the walk masks it on entry. -/
def curCr3 (st : KState) : Nat := (st.procs st.current).cr3

/-- `wake` from sched.rs. -/
def wake (st : KState) (pid : Nat) : KState :=
  if pid ≥ MAX_PROCS then st
  else if (st.procs pid).alive then
    updProc st pid fun p => { p with runnable := true, blocked_ep := 0 }
  else st

/-- `block_current_on_ep` from sched.rs. -/
def block_current_on_ep (st : KState) (ep_id : Nat) : KState :=
  updProc st st.current fun p => { p with runnable := false, blocked_ep := ep_id }

/-- `has_other_runnable` from sched.rs. -/
def has_other_runnable (st : KState) : Bool :=
  (List.range MAX_PROCS).any fun pid =>
    pid != st.current && (st.procs pid).alive && (st.procs pid).runnable

/-- The `alive && runnable` test of `pick_next_runnable`. -/
def aliveRunnable (procs : Nat → Proc) (i : Nat) : Bool :=
  (procs i).alive && (procs i).runnable

/-- The `for _ in 0..MAX_PROCS` loop body of `pick_next_runnable`. -/
def pickLoop (procs : Nat → Proc) : Nat → Nat → Option Nat
  | _, 0 => none
  | next, fuel + 1 =>
    let nx := (next + 1) % MAX_PROCS
    if aliveRunnable procs nx then some nx else pickLoop procs nx fuel

/-- `pick_next_runnable` from sched.rs. -/
def pick_next_runnable (procs : Nat → Proc) (cur : Nat) : Nat :=
  (pickLoop procs cur MAX_PROCS).getD cur

/-- The cyclic candidate order `cur+1, cur+2, ..., cur+MAX_PROCS (mod
MAX_PROCS)` named by the specification for claim C9. -/
def cyclicCandidates (cur : Nat) : List Nat :=
  (List.range MAX_PROCS).map fun k => (cur + 1 + k) % MAX_PROCS

/-- `proc_cr3` from sched.rs. -/
def proc_cr3 (st : KState) (pid : Nat) : Option Nat :=
  if pid ≥ MAX_PROCS then none else some (st.procs pid).cr3

/-- `switch_from` from sched.rs: save the current frame pointer, pick the
next runnable slot; on a real switch update RSP0, `MANTRA_NEXT_CR3` and
`CURRENT` and return the saved frame pointer of the next task, else 0. -/
def switch_from (st : KState) (cur_tf : Nat) : KState × Nat :=
  let st1 := updProc st st.current fun p => { p with tf_rsp := cur_tf }
  let next := pick_next_runnable st1.procs st1.current
  if next = st1.current then (st1, 0)
  else
    let st2 := { st1 with
      rsp0 := (st1.procs next).kstack_top
      next_cr3 := (st1.procs next).cr3
      current := next }
    (st2, (st1.procs next).tf_rsp)

/-- `yield_from_syscall` from sched.rs. -/
def yield_from_syscall (st : KState) (cur_tf : Nat) : KState × Nat :=
  if !st.inited then (st, 0) else switch_from st cur_tf

/-- `cap_alloc_for` from sched.rs: store `endpoint_id` in the first zero
capability slot, returning the 1-based capability index. -/
def cap_alloc_for (st : KState) (pid endpoint_id : Nat) :
    Option (KState × Nat) :=
  if pid ≥ MAX_PROCS ∨ endpoint_id = 0 then none
  else
    let caps := (st.procs pid).caps
    let i := caps.findIdx (· == 0)
    if i < caps.length then
      some (updProc st pid (fun p => { p with caps := p.caps.set i endpoint_id }),
        i + 1)
    else none

/-- `cap_alloc_current` from sched.rs. -/
def cap_alloc_current (st : KState) (endpoint_id : Nat) : Option (KState × Nat) :=
  cap_alloc_for st st.current endpoint_id

/-- `cap_lookup_current` from sched.rs. -/
def cap_lookup_current (st : KState) (cap : Nat) : Option Nat :=
  if cap = 0 then none
  else
    let idx := cap - 1
    if st.current ≥ MAX_PROCS ∨ idx ≥ 32 then none
    else
      let ep := ((st.procs st.current).caps).getD idx 0
      if ep = 0 then none else some ep

/-! ## Endpoint queue operations (ipc.rs) -/

/-- `endpoint_alloc` from ipc.rs: `NEXT_EP.fetch_add(1)` increments the
usize counter unconditionally (wrapping mod 2^64) and returns its old
value; ids are 1-based. -/
def endpoint_alloc (st : KState) : KState × Option Nat :=
  let i := st.next_ep
  let st1 := { st with next_ep := (st.next_ep + 1) % U64_CAP }
  if i ≥ MAX_ENDPOINTS then (st1, none) else (st1, some (i + 1))

/-- The state after `k` further `endpoint_alloc` calls. -/
def allocIter (st : KState) : Nat → KState
  | 0 => st
  | k + 1 => (endpoint_alloc (allocIter st k)).1

/-- `ep_create` from ipc.rs. -/
def ep_create (st : KState) : KState × Nat :=
  match endpoint_alloc st with
  | (st1, none) => (st1, u64MAX)
  | (st1, some ep) =>
    match cap_alloc_current st1 ep with
    | none => (st1, u64MAX)
    | some (st2, cap) => (st2, cap)

/-- `waiter_push` from ipc.rs.  Note the full test compares
`wait_tail.wrapping_add(1) % MAX_WAITERS` against the raw `wait_head`. -/
def waiter_push (st : KState) (endpoint_id pid : Nat) : KState × Bool :=
  if endpoint_id = 0 ∨ pid > 255 then (st, false)
  else
    let epi := endpoint_id - 1
    if epi ≥ MAX_ENDPOINTS then (st, false)
    else
      let e := st.eps epi
      if (e.wait_tail + 1) % U64_CAP % MAX_WAITERS = e.wait_head then (st, false)
      else
        let slot := e.wait_tail % MAX_WAITERS
        (updEp st epi (fun e0 => { e0 with
            waiters := fun i => if i = slot then pid else e0.waiters i
            wait_tail := (e0.wait_tail + 1) % U64_CAP }), true)

/-- `waiter_pop` from ipc.rs. -/
def waiter_pop (st : KState) (endpoint_id : Nat) : Option (KState × Nat) :=
  if endpoint_id = 0 then none
  else
    let epi := endpoint_id - 1
    if epi ≥ MAX_ENDPOINTS then none
    else
      let e := st.eps epi
      if e.wait_head = e.wait_tail then none
      else
        let slot := e.wait_head % MAX_WAITERS
        some (updEp st epi
          (fun e0 => { e0 with wait_head := (e0.wait_head + 1) % U64_CAP }),
          e.waiters slot)

/-- The queue part of `ep_send_cap` (ipc.rs), after capability resolution:
if `(tail.wrapping_add(1) % Q_LEN) == head` report full (`MAX-1`), else
store the truncated message at `tail % Q_LEN` and advance `tail`. -/
def epPush (e : Endpoint) (msg : List Nat) (xfer_ep : Nat) : Endpoint × Nat :=
  let n := min msg.length MAX_MSG
  if (e.tail + 1) % U64_CAP % Q_LEN = e.head then (e, u64MAX - 1)
  else
    let slot := e.tail % Q_LEN
    let newmsg : Msg := ⟨n, xfer_ep, msg.take n ++ (e.buf slot).data.drop n⟩
    ({ e with
        buf := fun i => if i = slot then newmsg else e.buf i
        tail := (e.tail + 1) % U64_CAP }, n)

/-- The queue part of `ep_recv_cap` (ipc.rs), after capability resolution:
if empty report `MAX-2`, else read the message at `head % Q_LEN` bounded by
the stored length and the output buffer, advance `head`.  Returns the new
endpoint, the byte count, the transferred endpoint id and the bytes copied
to the output buffer. -/
def epPop (e : Endpoint) (out_len : Nat) : Endpoint × Nat × Nat × List Nat :=
  if e.head = e.tail then (e, u64MAX - 2, 0, [])
  else
    let slot := e.head % Q_LEN
    let len := (e.buf slot).len
    let n := min len out_len
    let xfer := (e.buf slot).xfer_ep
    ({ e with head := (e.head + 1) % U64_CAP }, n, xfer, (e.buf slot).data.take n)

/-- `ep_send_cap` from ipc.rs. -/
def ep_send_cap (st : KState) (cap : Nat) (msg : List Nat) (xfer_ep : Nat) :
    KState × Nat :=
  match cap_lookup_current st cap with
  | none => (st, u64MAX)
  | some epid =>
    let epi := epid - 1
    if epi ≥ MAX_ENDPOINTS then (st, u64MAX)
    else
      let (e, r) := epPush (st.eps epi) msg xfer_ep
      (updEp st epi (fun _ => e), r)

/-- `ep_send` from ipc.rs. -/
def ep_send (st : KState) (cap : Nat) (msg : List Nat) : KState × Nat :=
  ep_send_cap st cap msg 0

/-- `ep_recv_cap` from ipc.rs.  The out buffer is modeled by its length and
the returned byte list. -/
def ep_recv_cap (st : KState) (cap out_len : Nat) :
    KState × (Nat × Nat × List Nat) :=
  match cap_lookup_current st cap with
  | none => (st, (u64MAX, 0, []))
  | some epid =>
    let epi := epid - 1
    if epi ≥ MAX_ENDPOINTS then (st, (u64MAX, 0, []))
    else
      let r := epPop (st.eps epi) out_len
      (updEp st epi (fun _ => r.1), r.2)

/-- `ep_recv` from ipc.rs. -/
def ep_recv (st : KState) (cap out_len : Nat) : KState × (Nat × List Nat) :=
  let r := ep_recv_cap st cap out_len
  (r.1, (r.2.1, r.2.2.2))

/-! ## Syscall handler paths (isr.rs) -/

/-- `user_copy_out` from isr.rs: the byte-wise copy-out loop under the
current CR3. -/
def user_copy_out (st : KState) (user_ptr : Nat) (src : List Nat) :
    KState × Option Unit :=
  let r := user_copy_out_in st.mem (curCr3 st) user_ptr src
  ({ st with mem := r.1 }, r.2)

/-- `deliver_ipc` from isr.rs: direct delivery of a staged message into the
user buffer of the blocked receiver `pid`, using the receiver saved
`rsi`/`rdx`, then setting the receiver saved RAX/RDX, installing a
transferred capability if any, and waking the receiver. -/
def deliver_ipc (st : KState) (pid : Nat) (msg : List Nat) (xfer_ep : Nat) :
    KState × Nat :=
  match proc_cr3 st pid with
  | none => (st, u64MAX)
  | some cr3 =>
    let tf := (st.procs pid).frame
    let user_ptr := tf.rsi
    let max_len := min tf.rdx 1024
    let n := min (min max_len 256) msg.length
    let r := user_copy_out_in st.mem cr3 user_ptr (msg.take n)
    let st1 := { st with mem := r.1 }
    match r.2 with
    | none => (st1, u64MAX)
    | some _ =>
      let st2 := updProc st1 pid fun p =>
        { p with frame := { p.frame with rax := n, rdx := 0 } }
      let st3 :=
        if xfer_ep ≠ 0 then
          match cap_alloc_for st2 pid xfer_ep with
          | some (st', new_cap) =>
            updProc st' pid fun p =>
              { p with frame := { p.frame with rdx := new_cap } }
          | none => st2
        else st2
      (wake st3 pid, n)

/-- The `IPC_SEND` arm of `mantra_syscall80_rust` (isr.rs): stage up to 256
bytes from the sender buffer, then either deliver directly to a popped
waiter or enqueue.  Returns the new state and the handler switch value. -/
def syscall_ipc_send (st : KState) : KState × Nat :=
  let tf := (st.procs st.current).frame
  let cap := tf.rdi % 2 ^ 32
  let user_ptr := tf.rsi
  let user_len := min tf.rdx 1024
  let n := min user_len 256
  match user_copy_in st.mem (curCr3 st) user_ptr n with
  | none => (setRax st u64MAX, 0)
  | some data =>
    match cap_lookup_current st cap with
    | some ep_id =>
      match waiter_pop st ep_id with
      | some (st1, pid) =>
        let r := deliver_ipc st1 pid data 0
        (setRax r.1 r.2, 0)
      | none =>
        let r := ep_send_cap st cap data 0
        (setRax r.1 r.2, 0)
    | none => (setRax st u64MAX, 0)

/-- The `IPC_RECV` arm of `mantra_syscall80_rust` (isr.rs).  On an empty
queue it blocks only when another process is alive and runnable; otherwise
it reports the receive result in the caller saved RAX.  Returns the new
state and the handler switch value. -/
def syscall_ipc_recv (st : KState) : KState × Nat :=
  let tf := (st.procs st.current).frame
  let cap := tf.rdi % 2 ^ 32
  let user_ptr := tf.rsi
  let max_len := min tf.rdx 1024
  let n := min max_len 256
  let rr := ep_recv st cap n
  let st1 := rr.1
  let got := rr.2.1
  let bytes := rr.2.2
  if got = u64MAX ∨ got = u64MAX - 2 then
    if got = u64MAX - 2 ∧ has_other_runnable st1 then
      match cap_lookup_current st1 cap with
      | some ep_id =>
        match waiter_push st1 ep_id st1.current with
        | (st2, true) =>
          let st3 := block_current_on_ep st2 ep_id
          yield_from_syscall st3 ((st3.procs st3.current).tf_rsp)
        | (st2, false) => (setRax st2 got, 0)
      | none => (setRax st1 u64MAX, 0)
    else (setRax st1 got, 0)
  else
    let w := user_copy_out st1 user_ptr bytes
    match w.2 with
    | some _ => (setRax w.1 got, 0)
    | none => (setRax w.1 u64MAX, 0)

/-! ## Endpoint reachability for claim C3 -/

/-- One queue operation on a single endpoint: the queue part of a send
(`ep_send_cap` with a valid capability) or of a receive. -/
inductive EpOp where
  | send (msg : List Nat) (xfer : Nat)
  | recv (out_len : Nat)

/-- Apply one queue operation. -/
def runEpOp (e : Endpoint) : EpOp → Endpoint
  | .send msg xfer => (epPush e msg xfer).1
  | .recv k => (epPop e k).1

/-- Run a sequence of sends and receives from the boot endpoint state. -/
def runEpOps (ops : List EpOp) : Endpoint := ops.foldl runEpOp emptyEndpoint

/-- Number of queued messages of an endpoint state (raw counters). -/
def epCount (e : Endpoint) : Nat := e.tail - e.head

/-! ## Boot-info magic (libs/bootinfo, main.rs) -/

/-- `BootInfo::MAGIC` from src/libs/bootinfo/src/lib.rs: `0x4D_41_4E_54`. -/
def BootInfo_MAGIC : Nat := 0x4D414E54

/-- `BootInfo::VERSION` from src/libs/bootinfo/src/lib.rs. -/
def BootInfo_VERSION : Nat := 2

/-- The `_start` guard in main.rs proceeds past the boot-info check exactly
when this holds (`bi.magic != MAGIC || bi.version != VERSION` halts). -/
def bootinfo_accepted (magic version : Nat) : Bool :=
  magic == BootInfo_MAGIC && version == BootInfo_VERSION

/-! ## Physical memory manager (pmm.rs) -/

/-- `PAGE_SIZE` from pmm.rs. -/
def PAGE_SIZE : Nat := 4096

/-- `MAX_RANGES` from pmm.rs. -/
def MAX_RANGES : Nat := 128

/-- A half-open frame interval `[base, endp)`; `endp` is the source field
`end`, renamed because `end` is reserved in Lean. -/
structure Range where
  base : Nat
  endp : Nat
deriving DecidableEq

/-- `MemoryRegion` from libs/bootinfo; `kind` is the `RegionKind` number
(`Usable = 1`). -/
structure MemoryRegion where
  base : Nat
  len : Nat
  kind : Nat
deriving DecidableEq

/-- `PmmStats` from pmm.rs. -/
structure PmmStats where
  usable_bytes : Nat
  free_bytes : Nat
  range_count : Nat
deriving DecidableEq

/-- The live part of the `Pmm` struct: the first `len` entries of the range
array, plus the cursor. -/
structure Pmm where
  ranges : List Range
  cursor : Nat
deriving DecidableEq

/-- u64 `saturating_add`. -/
def satAdd (a b : Nat) : Nat := min (a + b) (U64_CAP - 1)

/-- u64 `saturating_mul`. -/
def satMul (a b : Nat) : Nat := min (a * b) (U64_CAP - 1)

/-- `align_up` from pmm.rs.  The source computes `(x + (a-1)) & !(a-1)` in
u64; for the power-of-two `PAGE_SIZE` used at every call site this equals
rounding the wrapped sum down to a multiple of `a`. -/
def align_up (x a : Nat) : Nat :=
  if a = 0 then x else (x + (a - 1)) % U64_CAP / a * a

/-- `align_down` from pmm.rs (`x & !(a-1)` for the power-of-two page size). -/
def align_down (x a : Nat) : Nat :=
  if a = 0 then x else x / a * a

/-- `overlaps` from pmm.rs. -/
def overlaps (a0 a1 b0 b1 : Nat) : Prop := a0 < b1 ∧ b0 < a1

instance (a0 a1 b0 b1 : Nat) : Decidable (overlaps a0 a1 b0 b1) :=
  inferInstanceAs (Decidable (_ ∧ _))

/-- Insert one range into a by-base sorted list, after all entries with a
smaller-or-equal base: the inner shift loop of `sort_by_base`. -/
def insRange (x : Range) : List Range → List Range
  | [] => [x]
  | y :: ys => if y.base ≤ x.base then y :: insRange x ys else x :: y :: ys

/-- `sort_by_base` from pmm.rs (insertion sort). -/
def sort_by_base (l : List Range) : List Range :=
  l.foldl (fun acc x => insRange x acc) []

/-- The inner absorb loop of `merge_adjacent`. -/
def mergeGo (cur : Range) : List Range → List Range
  | [] => [cur]
  | r :: rest =>
    if r.base ≤ cur.endp then mergeGo { cur with endp := max cur.endp r.endp } rest
    else cur :: mergeGo r rest

/-- `merge_adjacent` from pmm.rs: on a by-base sorted list, coalesce
adjacent or overlapping intervals. -/
def merge_adjacent : List Range → List Range
  | [] => []
  | r :: rest => mergeGo r rest

/-- `subtract_reserved` from pmm.rs.  `used` counts the entries already
processed (the prefix kept so far); the capacity test of the middle split is
`used + todo ≥ MAX_RANGES`, matching `*len >= ranges.len()`. -/
def subtract_reserved (res_base res_end : Nat) :
    Nat → List Range → Option (List Range)
  | _, [] => some []
  | used, r :: rest =>
    if ¬ overlaps r.base r.endp res_base res_end then
      (subtract_reserved res_base res_end (used + 1) rest).map (r :: ·)
    else if res_base ≤ r.base ∧ res_end ≥ r.endp then
      subtract_reserved res_base res_end used rest
    else if res_base ≤ r.base ∧ res_end < r.endp then
      (subtract_reserved res_base res_end (used + 1) rest).map
        (Range.mk res_end r.endp :: ·)
    else if res_base > r.base ∧ res_end ≥ r.endp then
      (subtract_reserved res_base res_end (used + 1) rest).map
        (Range.mk r.base res_base :: ·)
    else
      if used + 1 + rest.length ≥ MAX_RANGES then none
      else
        (subtract_reserved res_base res_end (used + 2) rest).map
          (fun tl => Range.mk r.base res_base :: Range.mk res_end r.endp :: tl)

/-- One iteration of the usable-range collection loop of `init` (pmm.rs). -/
def collectStep (acc : Option (List Range × Nat)) (r : MemoryRegion) :
    Option (List Range × Nat) :=
  match acc with
  | none => none
  | some (rs, ub) =>
    if r.kind ≠ 1 then some (rs, ub)
    else
      let base := align_up r.base PAGE_SIZE
      let e := align_down (satAdd r.base r.len) PAGE_SIZE
      if e ≤ base then some (rs, ub)
      else
        let ub1 := satAdd ub (e - base)
        if rs.length ≥ MAX_RANGES then none
        else some (rs ++ [Range.mk base e], ub1)

/-- The usable-range collection loop at the top of `init` (pmm.rs). -/
def collectUsable (regions : List MemoryRegion) : Option (List Range × Nat) :=
  regions.foldl collectStep (some ([], 0))

/-- One iteration of the non-usable subtraction loop of `init` (pmm.rs). -/
def subtractStep (acc : Option (List Range)) (r : MemoryRegion) :
    Option (List Range) :=
  match acc with
  | none => none
  | some rs =>
    if r.kind = 1 then some rs
    else if r.len = 0 then some rs
    else
      let res_base := align_down r.base PAGE_SIZE
      let res_end := align_up (satAdd r.base r.len) PAGE_SIZE
      if res_end ≤ res_base then some rs
      else subtract_reserved res_base res_end 0 rs

/-- The non-usable subtraction loop of `init` (pmm.rs). -/
def subtractAll (regions : List MemoryRegion) (rs0 : List Range) :
    Option (List Range) :=
  regions.foldl subtractStep (some rs0)

/-- `init` from pmm.rs: collect page-aligned usable ranges, sort, merge,
subtract every non-usable region and the first mebibyte, drop empty ranges. -/
def pmm_init (regions : List MemoryRegion) : Option (Pmm × PmmStats) :=
  match collectUsable regions with
  | none => none
  | some (rs0, usable_bytes) =>
    if rs0.length = 0 then none
    else
      let rs1 := merge_adjacent (sort_by_base rs0)
      match subtractAll regions rs1 with
      | none => none
      | some rs2 =>
        match subtract_reserved 0 0x100000 0 rs2 with
        | none => none
        | some rs3 =>
          let rs4 := rs3.filter fun r => r.base < r.endp
          if rs4.length = 0 then none
          else
            let free_bytes := rs4.foldl (fun s r => satAdd s (r.endp - r.base)) 0
            some (⟨rs4, 0⟩, ⟨usable_bytes, free_bytes, rs4.length⟩)

/-- The scan loop of `alloc_pages` (pmm.rs).  The fuel
`ranges.length - cursor + 1` is exact: every iteration either returns or
advances the cursor by one. -/
def allocLoop (need : Nat) : Pmm → Nat → Option Nat × Pmm
  | pm, 0 => (none, pm)
  | pm, fuel + 1 =>
    if h : pm.cursor < pm.ranges.length then
      let r := pm.ranges.get ⟨pm.cursor, h⟩
      if r.endp ≤ r.base then
        allocLoop need { pm with cursor := pm.cursor + 1 } fuel
      else if r.endp - r.base < need then
        allocLoop need { pm with cursor := pm.cursor + 1 } fuel
      else
        let nb := satAdd r.base need
        (some r.base,
          { ranges := pm.ranges.set pm.cursor { r with base := nb }
            cursor := if nb ≥ r.endp then pm.cursor + 1 else pm.cursor })
    else (none, pm)

/-- `alloc_pages` from pmm.rs: first fit from the monotone cursor, carving
from the low end of the current interval. -/
def alloc_pages (pm : Pmm) (pages : Nat) : Option Nat × Pmm :=
  if pages = 0 then (none, pm)
  else allocLoop (satMul pages PAGE_SIZE) pm (pm.ranges.length - pm.cursor + 1)

/-- `alloc_frame` from pmm.rs. -/
def alloc_frame (pm : Pmm) : Option Nat × Pmm := alloc_pages pm 1

/-- Run a sequence of `alloc_pages` requests, collecting the successful
allocations as (base, pages) pairs. -/
def allocBlocks : Pmm → List Nat → List (Nat × Nat)
  | _, [] => []
  | pm, n :: rest =>
    match alloc_pages pm n with
    | (some p, pm1) => (p, n) :: allocBlocks pm1 rest
    | (none, pm1) => allocBlocks pm1 rest

/-- Disjointness of two allocated blocks `[base, base + pages*PAGE_SIZE)`. -/
def blockDisjoint (a b : Nat × Nat) : Prop :=
  a.1 + a.2 * PAGE_SIZE ≤ b.1 ∨ b.1 + b.2 * PAGE_SIZE ≤ a.1

/-- The allocation guarantees claimed for the PMM: page-aligned bases, never
below one mebibyte, pairwise disjoint. -/
def goodBlocks (bs : List (Nat × Nat)) : Prop :=
  (∀ b ∈ bs, b.1 % PAGE_SIZE = 0 ∧ 0x100000 ≤ b.1) ∧ bs.Pairwise blockDisjoint

/-- Well-formedness of one live PMM range: page-aligned endpoints, not below
one mebibyte, base at most endp, endp a u64. -/
def RangeOk (r : Range) : Prop :=
  r.base % PAGE_SIZE = 0 ∧ r.endp % PAGE_SIZE = 0 ∧ r.base ≤ r.endp ∧
    0x100000 ≤ r.base ∧ r.endp < U64_CAP

/-- The PMM invariant: every live range is well formed and the ranges are
ordered and disjoint. -/
def PmmInv (pm : Pmm) : Prop :=
  (∀ r ∈ pm.ranges, RangeOk r) ∧
    pm.ranges.Pairwise fun a b => a.endp ≤ b.base

/-- Well-formedness of an intermediate `init` range, before the first
mebibyte has been subtracted. -/
def MRangeOk (r : Range) : Prop :=
  r.base % PAGE_SIZE = 0 ∧ r.endp % PAGE_SIZE = 0 ∧ r.base ≤ r.endp ∧
    r.endp < U64_CAP

/-- The full test of `ep_send_cap`:
`(tail.wrapping_add(1) % Q_LEN) == head` with the raw head counter. -/
def sendFullCheck (e : Endpoint) : Prop :=
  (e.tail + 1) % U64_CAP % Q_LEN = e.head

instance (e : Endpoint) : Decidable (sendFullCheck e) :=
  inferInstanceAs (Decidable (_ = _))

/-! ## Concrete states used by witnesses and counterexamples -/

/-- Concrete memory for the copy-out counterexample: a 4-level page table
rooted at physical 0x10000 that maps the user page [0x1000, 0x2000) to the
frame at 0x20000 with P|U at every level, and maps nothing else.  Bytes are
stored little-endian: the PML4 entry at 0x10000 is 0x11005, the PDPT entry
at 0x11000 is 0x12005, the PD entry at 0x12000 is 0x13005, and the PT entry
for index 1 at 0x13008 is 0x20005. -/
def cexMem : Mem := fun a =>
  if a = 0x10000 then 0x05 else if a = 0x10001 then 0x10 else
  if a = 0x10002 then 0x01 else
  if a = 0x11000 then 0x05 else if a = 0x11001 then 0x20 else
  if a = 0x11002 then 0x01 else
  if a = 0x12000 then 0x05 else if a = 0x12001 then 0x30 else
  if a = 0x12002 then 0x01 else
  if a = 0x13008 then 0x05 else if a = 0x1300A then 0x02 else 0

/-- An all-zero syscall frame. -/
def zeroFrame : Frame := ⟨0, 0, 0, 0, 0⟩

/-- An unused (dead) process slot. -/
def deadProc : Proc := ⟨0, 0, 0, [], false, false, 0, zeroFrame⟩

/-- A capability table whose slot 1 names endpoint id 1. -/
def capsEp1 : List Nat := 1 :: List.replicate 31 0

/-- A live runnable process holding capability 1 → endpoint 1, with an
all-zero frame. -/
def aliveProcEp1 : Proc := ⟨0, 0, 0, capsEp1, true, true, 0, zeroFrame⟩

/-- Witness state for C4: process 0 runs with capability 1 on the (empty)
endpoint 1. -/
def w4State : KState :=
  ⟨fun i => if i = 0 then aliveProcEp1 else deadProc, 0,
    fun _ => emptyEndpoint, 1, 0, 0, true, fun _ => 0⟩

/-- Thirty-one queue sends of the one-byte message [0]. -/
def c3ops : List EpOp := List.replicate 31 (EpOp.send [0] 0)

/-- The endpoint state after 31 sends from boot. -/
def c3ep : Endpoint := runEpOps c3ops

/-- Counterexample state for C3: process 0 holds capability 1 on endpoint 1
whose queue has been filled by 31 sends. -/
def c3State : KState :=
  ⟨fun i => if i = 0 then aliveProcEp1 else deadProc, 0,
    fun i => if i = 0 then c3ep else emptyEndpoint, 1, 0, 0, true, fun _ => 0⟩

/-- Witness state for C10: the current process has all 32 capability slots
occupied. -/
def c10State : KState :=
  ⟨fun i => if i = 0 then
      ⟨0, 0, 0, List.replicate 32 1, true, true, 0, zeroFrame⟩
    else deadProc, 0,
    fun _ => emptyEndpoint, 3, 0, 0, true, fun _ => 0⟩

/-- Witness receiver for C2: blocked on endpoint 1, zero-length buffer. -/
def w2Receiver : Proc := ⟨0, 0, 0, [], true, false, 1, zeroFrame⟩

/-- Witness sender frame for C2: cap 1, zero-length message. -/
def w2SenderFrame : Frame := ⟨0, 0, 0, 1, 0⟩

/-- Witness state for C2: process 0 (current) sends on capability 1 →
endpoint 1; process 1 is blocked receiving on endpoint 1 and sits alone on
its waiter list; the queue is empty. -/
def w2State : KState :=
  ⟨fun i => if i = 0 then ⟨0, 0, 0, capsEp1, true, true, 0, w2SenderFrame⟩
    else if i = 1 then w2Receiver else deadProc, 0,
    fun i => if i = 0 then
        ⟨0, 0, fun _ => EMPTY_MSG, 0, 1, fun j => if j = 0 then 1 else 0⟩
      else emptyEndpoint, 1, 0, 0, true, fun _ => 0⟩

/-- Witness state for C5: process 0 (current) receives on capability 1 →
endpoint 1 with an empty queue, and no other process is alive and
runnable. -/
def w5State : KState :=
  ⟨fun i => if i = 0 then ⟨0, 0, 0, capsEp1, true, true, 0, ⟨0, 0, 0, 1, 0⟩⟩
    else deadProc, 0,
    fun _ => emptyEndpoint, 1, 0, 0, true, fun _ => 0⟩

/-- Witness state for the deliver-returns-MAX part of C1: process 0 is a
receiver whose buffer starts at 0x1FFF under the counterexample page
tables, expecting up to 2 bytes. -/
def w1State : KState :=
  ⟨fun i => if i = 0 then ⟨0, 0, 0x10000, [], true, false, 1, ⟨0, 2, 0x1FFF, 0, 0⟩⟩
    else deadProc, 7,
    fun _ => emptyEndpoint, 1, 0, 0, true, cexMem⟩

/-- The boot memory map of the end-to-end scenario: one Usable region
[0x100000, 0x80000000) and the Kernel range [0x100000, 0x200000). -/
def bootRegions : List MemoryRegion :=
  [⟨0x100000, 0x7FF00000, 1⟩, ⟨0x100000, 0x100000, 6⟩]

/-- The PMM state produced by `pmm_init bootRegions`. -/
def bootPm : Pmm := ⟨[⟨0x200000, 0x80000000⟩], 0⟩

/-! # Theorems -/

theorem user_copy_in_length (m : Mem) (pml4 : Nat) :
    ∀ (n ptr : Nat) (l : List Nat),
      user_copy_in m pml4 ptr n = some l → l.length = n := by
  intro n
  induction n with
  | zero =>
    intro ptr l h
    simp [user_copy_in] at h
    simp [← h]
  | succ k ih =>
    intro ptr l h
    unfold user_copy_in at h
    cases hv : virt_to_phys_in m pml4 ptr with
    | none => rw [hv] at h; simp at h
    | some p =>
      rw [hv] at h
      cases hr : user_copy_in m pml4 ((ptr + 1) % U64_CAP) k with
      | none => rw [hr] at h; simp at h
      | some rest =>
        rw [hr] at h
        simp at h
        have := ih ((ptr + 1) % U64_CAP) rest hr
        simp [← h, this]

/-- C1, counterexample: with the page [0x1000,0x2000) mapped and the next
page unmapped, copying the two bytes [0xAA, 0xBB] to user address 0x1FFF
fails (so the syscall returns MAX), yet the first byte has already been
written to the receiver frame at physical 0x20FFF.  The transfer into user
memory is therefore not all-or-nothing. -/
theorem deliver_partial_write_cex :
    (user_copy_out_in cexMem 0x10000 0x1FFF [0xAA, 0xBB]).2 = none ∧
    (user_copy_out_in cexMem 0x10000 0x1FFF [0xAA, 0xBB]).1 0x20FFF = 0xAA ∧
    cexMem 0x20FFF = 0 := by
  refine ⟨by decide, by decide, by decide⟩

/-- C8, counterexample: the magic the kernel requires is `0x4D414E54`, not
`0x544E414D` as claimed; a boot record carrying magic 0x544E414D with the
correct version is rejected, while 0x4D414E54 is accepted. -/
theorem bootinfo_magic_cex :
    BootInfo_MAGIC ≠ 0x544E414D ∧
    bootinfo_accepted 0x544E414D 2 = false ∧
    bootinfo_accepted 0x4D414E54 2 = true := by decide

/-- C8, amended: the `_start` boot-info guard accepts exactly magic
0x4D414E54 (the bytes "MANT" read as a big-endian u32) together with
version 2; every other magic value is rejected and the kernel halts. -/
theorem bootinfo_accepted_iff (magic version : Nat) :
    bootinfo_accepted magic version = true ↔
      magic = 0x4D414E54 ∧ version = 2 := by
  simp [bootinfo_accepted, BootInfo_MAGIC, BootInfo_VERSION]

/-- C7: on the boot memory map - Usable [0x100000, 0x80000000) and Kernel
[0x100000, 0x200000) - `init` succeeds with free_bytes = 0x7FE00000 (and
usable_bytes = 0x7FF00000, one remaining range [0x200000, 0x80000000)),
and the first `alloc_frame` afterwards returns 0x200000. -/
theorem pmm_boot_scenario :
    pmm_init bootRegions = some (bootPm, ⟨0x7FF00000, 0x7FE00000, 1⟩) ∧
    (alloc_frame bootPm).1 = some 0x200000 := by decide

/-- C3, counterexample: after 31 sends from boot the endpoint queue holds
31 messages - not Q_LEN = 32 - and `ep_send_cap` on a valid capability
already reports full (`MAX-1`). -/
theorem ep_send_full_at_31_cex :
    (ep_send_cap c3State 1 [5] 0).2 = u64MAX - 1 ∧
    epCount (c3State.eps 0) = 31 ∧ epCount (c3State.eps 0) ≠ 32 := by decide

/-- C4, counterexample: with one message [7] already queued (a non-full
queue), sending m = [9] succeeds, but the next `ep_recv` returns the older
payload [7], not the first min-bytes of m. -/
theorem ep_send_recv_nonempty_cex :
    ((ep_send w4State 1 [7]).1.eps 0).head ≠ ((ep_send w4State 1 [7]).1.eps 0).tail ∧
    (¬ sendFullCheck ((ep_send w4State 1 [7]).1.eps 0)) ∧
    (ep_send (ep_send w4State 1 [7]).1 1 [9]).2 = 1 ∧
    (ep_recv (ep_send (ep_send w4State 1 [7]).1 1 [9]).1 1 5).2 = (1, [7]) := by
  decide

theorem pickLoop_eq_find (procs : Nat → Proc) :
    ∀ (fuel next : Nat),
      pickLoop procs next fuel =
        ((List.range fuel).map fun k => (next + 1 + k) % MAX_PROCS).find?
          (fun i => aliveRunnable procs i) := by
  intro fuel
  induction fuel with
  | zero => intro next; simp [pickLoop]
  | succ f ih =>
    intro next
    have hstep : pickLoop procs next (f + 1)
        = if aliveRunnable procs ((next + 1) % MAX_PROCS)
          then some ((next + 1) % MAX_PROCS)
          else pickLoop procs ((next + 1) % MAX_PROCS) f := rfl
    rw [hstep, List.range_succ_eq_map, List.map_cons, List.map_map,
      List.find?_cons]
    have hfun : ((fun k => (next + 1 + k) % MAX_PROCS) ∘ Nat.succ)
        = fun k => ((next + 1) % MAX_PROCS + 1 + k) % MAX_PROCS := by
      funext k
      show (next + 1 + (k + 1)) % MAX_PROCS
          = ((next + 1) % MAX_PROCS + 1 + k) % MAX_PROCS
      simp only [MAX_PROCS]
      omega
    rw [hfun, ← ih ((next + 1) % MAX_PROCS)]
    cases hc : aliveRunnable procs ((next + 1) % MAX_PROCS) <;> simp [hc]

/-- C9: for every process table and every cur < MAX_PROCS,
`pick_next_runnable cur` returns the first index in the cyclic order
cur+1, cur+2, ..., cur+MAX_PROCS (mod MAX_PROCS) whose slot is alive and
runnable, and cur itself when no slot in that sequence qualifies. -/
theorem pick_next_runnable_first_cyclic (procs : Nat → Proc) (cur : Nat)
    (h : cur < MAX_PROCS) :
    pick_next_runnable procs cur =
      ((cyclicCandidates cur).find? fun i => aliveRunnable procs i).getD cur := by
  unfold pick_next_runnable cyclicCandidates
  rw [pickLoop_eq_find]

/-- C9, witness: a concrete table where slots 0 and 4 are alive and
runnable; starting from cur = 2 the first cyclic candidate is 4. -/
theorem pick_next_runnable_first_cyclic_witness :
    pick_next_runnable
        (fun i => if i = 0 ∨ i = 4 then aliveProcEp1 else deadProc) 2 =
      (((cyclicCandidates 2).find? fun i =>
          aliveRunnable (fun i => if i = 0 ∨ i = 4 then aliveProcEp1 else deadProc) i)).getD 2 :=
  pick_next_runnable_first_cyclic _ 2 (by decide)

theorem findIdx_zero_eq_length (l : List Nat) (h : ∀ c ∈ l, c ≠ 0) :
    l.findIdx (· == 0) = l.length := by
  induction l with
  | nil => rfl
  | cons a t ih =>
    rw [List.findIdx_cons]
    have ha : (a == 0) = false := by simpa using h a (by simp)
    simp [ha, ih fun c hc => h c (by simp [hc])]

theorem endpoint_alloc_result (st : KState) :
    (endpoint_alloc st).2 =
      if st.next_ep ≥ MAX_ENDPOINTS then none else some (st.next_ep + 1) := by
  unfold endpoint_alloc
  by_cases h : st.next_ep ≥ MAX_ENDPOINTS
  · rw [if_pos h, if_pos h]
  · rw [if_neg h, if_neg h]

theorem allocIter_next_ep (st : KState) :
    ∀ k : Nat, (allocIter st k).next_ep = (st.next_ep + k) % U64_CAP ∨
      ((allocIter st k).next_ep = st.next_ep ∧ k = 0) := by
  intro k
  induction k with
  | zero => exact Or.inr ⟨rfl, rfl⟩
  | succ j ih =>
    left
    have hstep : (allocIter st (j + 1)).next_ep
        = ((allocIter st j).next_ep + 1) % U64_CAP := by
      show (endpoint_alloc (allocIter st j)).1.next_ep = _
      unfold endpoint_alloc
      by_cases h : (allocIter st j).next_ep ≥ MAX_ENDPOINTS
      · rw [if_pos h]
      · rw [if_neg h]
    rcases ih with h1 | h2
    · rw [hstep, h1]
      simp only [U64_CAP]
      omega
    · rw [hstep, h2.1]
      simp only [U64_CAP]
      omega

/-- C10, counterexample: the id drawn by a failed `ep_create` is not
permanently consumed.  From the concrete full-table state (NEXT_EP = 3,
consumed id 4), after the usize counter makes 2^64 - 1 further
`endpoint_alloc` increments it wraps back, and `endpoint_alloc` hands out
id 4 again. -/
theorem ep_create_id_reused_after_wrap_cex :
    (ep_create c10State).2 = u64MAX ∧
    (endpoint_alloc (allocIter (ep_create c10State).1 (U64_CAP - 1))).2
      = some (c10State.next_ep + 1) := by
  constructor
  · decide
  · have h1 : (ep_create c10State).1.next_ep = 4 := by decide
    have h2 := allocIter_next_ep (ep_create c10State).1 (U64_CAP - 1)
    have h3 : (allocIter (ep_create c10State).1 (U64_CAP - 1)).next_ep = 3 := by
      rcases h2 with h | h
      · rw [h, h1]
        simp only [U64_CAP]
        omega
      · exfalso
        have := h.2
        simp only [U64_CAP] at this
        omega
    rw [endpoint_alloc_result, h3]
    rw [if_neg (by simp [MAX_ENDPOINTS])]
    decide

/-- C10, amended: when the calling process has no free capability slot,
`ep_create` returns MAX, yet `NEXT_EP` has still advanced (mod 2^64): the
endpoint id drawn from the allocator is consumed without rollback, and no
later `endpoint_alloc` hands it out again within the next 2^64 - 1 calls -
only a full wrap of the usize counter (2^64 - 1 further allocations, as in
the counterexample) can ever reuse it. -/
theorem ep_create_full_captable (st : KState)
    (hnext : st.next_ep < MAX_ENDPOINTS)
    (hfull : ∀ c ∈ (st.procs st.current).caps, c ≠ 0) :
    (ep_create st).2 = u64MAX ∧
    (ep_create st).1.next_ep = (st.next_ep + 1) % U64_CAP ∧
    ∀ k < U64_CAP - 1, ∀ st2 : KState,
      st2.next_ep = ((ep_create st).1.next_ep + k) % U64_CAP →
      (endpoint_alloc st2).2 ≠ some (st.next_ep + 1) := by
  have hlt : ¬ st.next_ep ≥ MAX_ENDPOINTS := by omega
  have halloc : endpoint_alloc st
      = ({ st with next_ep := (st.next_ep + 1) % U64_CAP },
          some (st.next_ep + 1)) := by
    simp [endpoint_alloc, hlt]
  have hcap : cap_alloc_current
      { st with next_ep := (st.next_ep + 1) % U64_CAP }
      (st.next_ep + 1) = none := by
    unfold cap_alloc_current cap_alloc_for
    by_cases hc : st.current ≥ MAX_PROCS
    · simp [hc]
    · have hne : ¬ (st.current ≥ MAX_PROCS ∨ st.next_ep + 1 = 0) := by
        push_neg
        exact ⟨by omega, by omega⟩
      rw [if_neg hne]
      have hidx := findIdx_zero_eq_length (st.procs st.current).caps hfull
      simp [hidx]
  have hres : ep_create st
      = ({ st with next_ep := (st.next_ep + 1) % U64_CAP }, u64MAX) := by
    unfold ep_create
    rw [halloc]
    simp [hcap]
  refine ⟨by rw [hres], by rw [hres], ?_⟩
  intro k hk st2 hst2 heq
  rw [hres] at hst2
  rw [endpoint_alloc_result] at heq
  by_cases h2 : st2.next_ep ≥ MAX_ENDPOINTS
  · rw [if_pos h2] at heq
    simp at heq
  · rw [if_neg h2] at heq
    simp only [Option.some.injEq] at heq
    have hst2n : st2.next_ep = ((st.next_ep + 1) % U64_CAP + k) % U64_CAP := hst2
    simp only [MAX_ENDPOINTS] at hnext h2
    simp only [U64_CAP] at hst2n hk
    omega

/-- C10, witness for the amended theorem: the concrete state with all 32
capability slots occupied and NEXT_EP = 3; ep_create returns MAX, NEXT_EP
becomes 4, and endpoint id 4 is not produced again within the next
2^64 - 1 allocations. -/
theorem ep_create_full_captable_witness :
    (ep_create c10State).2 = u64MAX ∧
    (ep_create c10State).1.next_ep = (c10State.next_ep + 1) % U64_CAP ∧
    ∀ k < U64_CAP - 1, ∀ st2 : KState,
      st2.next_ep = ((ep_create c10State).1.next_ep + k) % U64_CAP →
      (endpoint_alloc st2).2 ≠ some (c10State.next_ep + 1) :=
  ep_create_full_captable c10State (by decide) (by decide)

theorem user_copy_out_in_partial (pml4 : Nat) :
    ∀ (src : List Nat) (m : Mem) (ptr : Nat), ptr < U64_CAP →
      (user_copy_out_in m pml4 ptr src).2 = none →
      ∃ k < src.length,
        (user_copy_out_in m pml4 ptr (src.take k)).2 = some () ∧
        (user_copy_out_in m pml4 ptr src).1
          = (user_copy_out_in m pml4 ptr (src.take k)).1 ∧
        virt_to_phys_in (user_copy_out_in m pml4 ptr (src.take k)).1 pml4
          ((ptr + k) % U64_CAP) = none := by
  intro src
  induction src with
  | nil => intro m ptr _ h; simp [user_copy_out_in] at h
  | cons b rest ih =>
    intro m ptr hptr h
    cases hv : virt_to_phys_in m pml4 ptr with
    | none =>
      refine ⟨0, by simp, by simp [user_copy_out_in], ?_, ?_⟩
      · simp [user_copy_out_in, hv]
      · simpa [user_copy_out_in, Nat.mod_eq_of_lt hptr] using hv
    | some p =>
      have hstep : ∀ (l : List Nat), user_copy_out_in m pml4 ptr (b :: l)
          = user_copy_out_in (memWrite m p (b % 256)) pml4
              ((ptr + 1) % U64_CAP) l := by
        intro l; simp [user_copy_out_in, hv]
      rw [hstep] at h
      obtain ⟨k, hk, h1, h2, h3⟩ :=
        ih (memWrite m p (b % 256)) ((ptr + 1) % U64_CAP)
          (Nat.mod_lt _ (by simp [U64_CAP])) h
      refine ⟨k + 1, by simpa using Nat.succ_lt_succ hk, ?_, ?_, ?_⟩
      · rw [List.take_succ_cons, hstep]; exact h1
      · rw [List.take_succ_cons, hstep, hstep]; exact h2
      · rw [List.take_succ_cons, hstep]
        have haddr : ((ptr + 1) % U64_CAP + k) % U64_CAP
            = (ptr + (k + 1)) % U64_CAP := by
          simp only [U64_CAP]
          omega
        rw [← haddr]
        exact h3

/-- C1, amended: a destination-byte translation failure makes the transfer
fail (and the syscall return MAX), but the receiver user memory is not
untouched: exactly the bytes before the first untranslatable byte - a
proper prefix of the staged message - have already been written.  The
second conjunct records that `deliver_ipc` indeed returns MAX on such a
failure.  A failure at the first byte leaves memory unchanged. -/
theorem user_buffer_partial_write :
    (∀ (pml4 : Nat) (src : List Nat) (m : Mem) (ptr : Nat), ptr < U64_CAP →
      (user_copy_out_in m pml4 ptr src).2 = none →
      ∃ k < src.length,
        (user_copy_out_in m pml4 ptr (src.take k)).2 = some () ∧
        (user_copy_out_in m pml4 ptr src).1
          = (user_copy_out_in m pml4 ptr (src.take k)).1 ∧
        virt_to_phys_in (user_copy_out_in m pml4 ptr (src.take k)).1 pml4
          ((ptr + k) % U64_CAP) = none) ∧
    (∀ (st : KState) (pid : Nat) (msg : List Nat) (xfer : Nat),
      pid < MAX_PROCS →
      (user_copy_out_in st.mem (st.procs pid).cr3 (st.procs pid).frame.rsi
        (msg.take (min (min (min (st.procs pid).frame.rdx 1024) 256)
          msg.length))).2 = none →
      (deliver_ipc st pid msg xfer).2 = u64MAX) := by
  constructor
  · exact fun pml4 => user_copy_out_in_partial pml4
  · intro st pid msg xfer hpid hfail
    have hcr3 : proc_cr3 st pid = some (st.procs pid).cr3 := by
      simp [proc_cr3, Nat.not_le.mpr hpid]
    unfold deliver_ipc
    rw [hcr3]
    simp only []
    rw [hfail]

/-- C1, witness for the amended theorem: the concrete two-byte copy across
an unmapped page boundary writes exactly its first byte, and the concrete
direct delivery into that buffer returns MAX. -/
theorem user_buffer_partial_write_witness :
    (∃ k < ([0xAA, 0xBB] : List Nat).length,
      (user_copy_out_in cexMem 0x10000 0x1FFF ([0xAA, 0xBB].take k)).2 = some () ∧
      (user_copy_out_in cexMem 0x10000 0x1FFF [0xAA, 0xBB]).1
        = (user_copy_out_in cexMem 0x10000 0x1FFF ([0xAA, 0xBB].take k)).1 ∧
      virt_to_phys_in
        (user_copy_out_in cexMem 0x10000 0x1FFF ([0xAA, 0xBB].take k)).1 0x10000
        ((0x1FFF + k) % U64_CAP) = none) ∧
    (deliver_ipc w1State 0 [0xAA, 0xBB] 0).2 = u64MAX :=
  ⟨user_buffer_partial_write.1 0x10000 [0xAA, 0xBB] cexMem 0x1FFF
      (by decide) (by decide),
    user_buffer_partial_write.2 w1State 0 [0xAA, 0xBB] 0
      (by decide) (by decide)⟩

/-- C4, amended: a send of m on a valid capability to an endpoint whose
queue is EMPTY, followed by a receive on a capability naming the same
endpoint with an out buffer of size k, yields exactly the first
min(|m|, k, MAX_MSG) bytes of m, and that count as the receive result; the
send result is min(|m|, MAX_MSG). -/
theorem ep_send_then_recv_empty (st : KState) (cap cap2 epid : Nat)
    (m : List Nat) (k : Nat)
    (h1 : cap_lookup_current st cap = some epid)
    (hepi : epid - 1 < MAX_ENDPOINTS)
    (hempty : (st.eps (epid - 1)).head = (st.eps (epid - 1)).tail)
    (h2 : cap_lookup_current (ep_send st cap m).1 cap2 = some epid) :
    (ep_send st cap m).2 = min m.length MAX_MSG ∧
    (ep_recv (ep_send st cap m).1 cap2 k).2 =
      (min (min m.length MAX_MSG) k,
        m.take (min (min m.length MAX_MSG) k)) := by
  set e := st.eps (epid - 1) with he
  set n := min m.length MAX_MSG with hn
  have hnf : ¬ (e.tail + 1) % U64_CAP % Q_LEN = e.head := by
    rw [← hempty] at *
    simp only [U64_CAP, Q_LEN]
    omega
  have hpush : epPush e m 0 =
      ({ e with
          buf := fun i => if i = e.tail % Q_LEN then
              ⟨n, 0, m.take n ++ (e.buf (e.tail % Q_LEN)).data.drop n⟩
            else e.buf i
          tail := (e.tail + 1) % U64_CAP }, n) := by
    rw [epPush, if_neg hnf]
  have hsend : ep_send st cap m =
      (updEp st (epid - 1) (fun _ =>
        { e with
          buf := fun i => if i = e.tail % Q_LEN then
              ⟨n, 0, m.take n ++ (e.buf (e.tail % Q_LEN)).data.drop n⟩
            else e.buf i
          tail := (e.tail + 1) % U64_CAP }), n) := by
    unfold ep_send ep_send_cap
    rw [h1]
    simp only []
    rw [if_neg (by omega), ← he, hpush]
  have heps1 : (ep_send st cap m).1.eps (epid - 1) =
      { e with
        buf := fun i => if i = e.tail % Q_LEN then
            ⟨n, 0, m.take n ++ (e.buf (e.tail % Q_LEN)).data.drop n⟩
          else e.buf i
        tail := (e.tail + 1) % U64_CAP } := by
    rw [hsend]
    simp [updEp]
  have hne : ¬ e.head = (e.tail + 1) % U64_CAP := by
    rw [hempty]
    simp only [U64_CAP]
    omega
  have hnk : min n k ≤ (m.take n).length := by
    simp only [List.length_take]
    omega
  have hbytes : (m.take n ++ (e.buf (e.tail % Q_LEN)).data.drop n).take (min n k)
      = m.take (min n k) := by
    rw [List.take_append_of_le_length hnk, List.take_take]
    congr 1
    omega
  constructor
  · rw [hsend]
  · unfold ep_recv ep_recv_cap
    rw [h2]
    simp only []
    rw [if_neg (by omega)]
    rw [heps1]
    unfold epPop
    simp only []
    rw [if_neg (by simpa [hempty] using hne)]
    simp only [hempty, if_pos rfl]
    simp [hbytes]

/-- C4, witness: sending [7] on the empty endpoint 1 and receiving with a
5-byte buffer returns count 1 and payload [7]. -/
theorem ep_send_then_recv_empty_witness :
    (ep_send w4State 1 [7]).2 = min ([7] : List Nat).length MAX_MSG ∧
    (ep_recv (ep_send w4State 1 [7]).1 1 5).2 =
      (min (min ([7] : List Nat).length MAX_MSG) 5,
        [7].take (min (min ([7] : List Nat).length MAX_MSG) 5)) :=
  ep_send_then_recv_empty w4State 1 1 1 [7] 5
    (by decide) (by decide) (by decide) (by decide)

theorem epPush_full (e : Endpoint) (msg : List Nat) (x : Nat)
    (h : (e.tail + 1) % U64_CAP % Q_LEN = e.head) :
    epPush e msg x = (e, u64MAX - 1) := by
  unfold epPush; rw [if_pos h]

theorem epPush_not_full (e : Endpoint) (msg : List Nat) (x : Nat)
    (h : ¬ (e.tail + 1) % U64_CAP % Q_LEN = e.head) :
    epPush e msg x =
      ({ e with
          buf := fun i => if i = e.tail % Q_LEN then
              ⟨min msg.length MAX_MSG, x,
                msg.take (min msg.length MAX_MSG) ++
                  (e.buf (e.tail % Q_LEN)).data.drop (min msg.length MAX_MSG)⟩
            else e.buf i
          tail := (e.tail + 1) % U64_CAP }, min msg.length MAX_MSG) := by
  unfold epPush; rw [if_neg h]

theorem epPop_empty (e : Endpoint) (k : Nat) (h : e.head = e.tail) :
    epPop e k = (e, u64MAX - 2, 0, []) := by
  unfold epPop; rw [if_pos h]

theorem epPop_not_empty (e : Endpoint) (k : Nat) (h : ¬ e.head = e.tail) :
    epPop e k =
      ({ e with head := (e.head + 1) % U64_CAP },
        min (e.buf (e.head % Q_LEN)).len k, (e.buf (e.head % Q_LEN)).xfer_ep,
        (e.buf (e.head % Q_LEN)).data.take (min (e.buf (e.head % Q_LEN)).len k)) := by
  unfold epPop; rw [if_neg h]

theorem runEpOps_counters : ∀ (ops : List EpOp) (e : Endpoint) (n : Nat),
    n + ops.length < U64_CAP →
    e.head ≤ e.tail → e.tail ≤ n →
    (e.head < Q_LEN → e.tail ≤ e.head + (Q_LEN - 1)) →
    (ops.foldl runEpOp e).head ≤ (ops.foldl runEpOp e).tail ∧
    (ops.foldl runEpOp e).tail ≤ n + ops.length ∧
    ((ops.foldl runEpOp e).head < Q_LEN →
      (ops.foldl runEpOp e).tail ≤ (ops.foldl runEpOp e).head + (Q_LEN - 1)) := by
  intro ops
  induction ops with
  | nil =>
    intro e n hb h1 h2 h3
    simpa using ⟨h1, h2, h3⟩
  | cons op rest ih =>
    intro e n hb h1 h2 h3
    simp only [List.length_cons] at hb
    have htb : e.tail + 1 < U64_CAP := by omega
    have hinv : (runEpOp e op).head ≤ (runEpOp e op).tail ∧
        (runEpOp e op).tail ≤ n + 1 ∧
        ((runEpOp e op).head < Q_LEN →
          (runEpOp e op).tail ≤ (runEpOp e op).head + (Q_LEN - 1)) := by
      cases op with
      | send msg xfer =>
        simp only [runEpOp]
        by_cases hf : (e.tail + 1) % U64_CAP % Q_LEN = e.head
        · rw [epPush_full e msg xfer hf]
          refine ⟨h1, ?_, h3⟩
          show e.tail ≤ n + 1
          omega
        · rw [epPush_not_full e msg xfer hf]
          rw [Nat.mod_eq_of_lt htb] at hf
          refine ⟨?_, ?_, ?_⟩
          · show e.head ≤ (e.tail + 1) % U64_CAP
            rw [Nat.mod_eq_of_lt htb]; omega
          · show (e.tail + 1) % U64_CAP ≤ n + 1
            rw [Nat.mod_eq_of_lt htb]; omega
          · show e.head < Q_LEN → (e.tail + 1) % U64_CAP ≤ e.head + (Q_LEN - 1)
            rw [Nat.mod_eq_of_lt htb]
            intro hh
            have h31 := h3 hh
            simp only [Q_LEN] at hf h31 hh ⊢
            omega
      | recv k =>
        simp only [runEpOp]
        by_cases hc : e.head = e.tail
        · rw [epPop_empty e k hc]
          refine ⟨h1, ?_, h3⟩
          show e.tail ≤ n + 1
          omega
        · rw [epPop_not_empty e k hc]
          have hhb : e.head + 1 < U64_CAP := by omega
          refine ⟨?_, ?_, ?_⟩
          · show (e.head + 1) % U64_CAP ≤ e.tail
            rw [Nat.mod_eq_of_lt hhb]; omega
          · show e.tail ≤ n + 1
            omega
          · show (e.head + 1) % U64_CAP < Q_LEN →
              e.tail ≤ (e.head + 1) % U64_CAP + (Q_LEN - 1)
            rw [Nat.mod_eq_of_lt hhb]
            intro hh
            simp only [Q_LEN] at h3 hh ⊢
            omega
    have := ih (runEpOp e op) (n + 1) (by omega) hinv.1 hinv.2.1 hinv.2.2
    simpa [Nat.add_assoc, Nat.add_comm 1 rest.length] using this

/-- C3, amended: `ep_send_cap` on a valid capability reports full (MAX-1)
exactly when `(tail+1) mod 2^64 mod Q_LEN` equals the raw head counter.
For endpoint states reached by fewer than 2^64 queue operations this means:
while head < Q_LEN, full fires exactly at Q_LEN - 1 = 31 queued messages
(capacity 31, never 32); once head ≥ Q_LEN the full check can never fire
again; and in every non-full state the send enqueues the message at
`tail % Q_LEN` and returns min(len, MAX_MSG) ≤ MAX_MSG. -/
theorem ep_send_full_characterization (st : KState) (cap epid : Nat)
    (msg : List Nat) (x : Nat) (ops : List EpOp)
    (h1 : cap_lookup_current st cap = some epid)
    (hepi : epid - 1 < MAX_ENDPOINTS)
    (hops : ops.length < U64_CAP)
    (hreach : st.eps (epid - 1) = runEpOps ops) :
    ((ep_send_cap st cap msg x).2 = u64MAX - 1 ↔
      sendFullCheck (st.eps (epid - 1))) ∧
    ((st.eps (epid - 1)).head < Q_LEN →
      ((ep_send_cap st cap msg x).2 = u64MAX - 1 ↔
        epCount (st.eps (epid - 1)) = Q_LEN - 1)) ∧
    (Q_LEN ≤ (st.eps (epid - 1)).head →
      (ep_send_cap st cap msg x).2 ≠ u64MAX - 1) ∧
    (¬ sendFullCheck (st.eps (epid - 1)) →
      (ep_send_cap st cap msg x).2 = min msg.length MAX_MSG ∧
      min msg.length MAX_MSG ≤ MAX_MSG ∧
      ((ep_send_cap st cap msg x).1.eps (epid - 1)).tail
        = ((st.eps (epid - 1)).tail + 1) % U64_CAP ∧
      ((ep_send_cap st cap msg x).1.eps (epid - 1)).buf
          ((st.eps (epid - 1)).tail % Q_LEN)
        = ⟨min msg.length MAX_MSG, x,
            msg.take (min msg.length MAX_MSG) ++
              ((st.eps (epid - 1)).buf
                ((st.eps (epid - 1)).tail % Q_LEN)).data.drop
                  (min msg.length MAX_MSG)⟩) := by
  set e := st.eps (epid - 1) with he
  obtain ⟨hht, htn, hcap31⟩ := by
    have h0 : (0 : Nat) + ops.length < U64_CAP := by omega
    exact runEpOps_counters ops emptyEndpoint 0 h0 (by simp [emptyEndpoint])
      (by simp [emptyEndpoint]) (by simp [emptyEndpoint])
  rw [show ops.foldl runEpOp emptyEndpoint = runEpOps ops from rfl,
    ← hreach] at hht htn hcap31
  by_cases hf : sendFullCheck e
  · have hsend : ep_send_cap st cap msg x = (st, u64MAX - 1) := by
      unfold ep_send_cap
      rw [h1]
      simp only []
      rw [if_neg (by omega), ← he, epPush_full e msg x hf]
      have : updEp st (epid - 1) (fun _ => e) = st := by
        unfold updEp
        cases st with
        | mk procs current eps next_ep next_cr3 rsp0 inited mem =>
          simp only [KState.mk.injEq, and_true, true_and]
          funext i
          by_cases hi : i = epid - 1
          · subst hi; rw [if_pos rfl, he]
          · rw [if_neg hi]
      rw [this]
    rw [hsend]
    have hfull31 : e.head < Q_LEN → epCount e = Q_LEN - 1 := by
      intro hh
      unfold sendFullCheck at hf
      unfold epCount
      simp only [Q_LEN, U64_CAP] at hf hh hcap31
      simp only [Q_LEN]
      omega
    have hge : ¬ Q_LEN ≤ e.head := by
      intro hge
      unfold sendFullCheck at hf
      simp only [Q_LEN, U64_CAP] at hf hge
      omega
    refine ⟨by simpa using hf, ?_, ?_, fun hnf => absurd hf hnf⟩
    · intro hh
      exact ⟨fun _ => hfull31 hh, fun _ => rfl⟩
    · intro hh
      exact absurd hh hge
  · have hsend : ep_send_cap st cap msg x =
        (updEp st (epid - 1) (fun _ => (epPush e msg x).1),
          min msg.length MAX_MSG) := by
      unfold ep_send_cap
      rw [h1]
      simp only []
      rw [if_neg (by omega), ← he]
      rw [epPush_not_full e msg x hf]
    have hmm : min msg.length MAX_MSG ≠ u64MAX - 1 := by
      have : min msg.length MAX_MSG ≤ MAX_MSG := by omega
      simp only [MAX_MSG, u64MAX] at *
      omega
    have hupd : (updEp st (epid - 1) (fun _ => (epPush e msg x).1)).eps (epid - 1)
        = (epPush e msg x).1 := by
      unfold updEp
      simp
    refine ⟨?_, ?_, ?_, ?_⟩
    · rw [hsend]
      simp only []
      constructor
      · intro h; exact absurd h hmm
      · intro h; exact absurd h hf
    · intro hh
      rw [hsend]
      simp only []
      constructor
      · intro h; exact absurd h hmm
      · intro hcnt
        exfalso
        unfold sendFullCheck at hf
        unfold epCount at hcnt
        simp only [Q_LEN, U64_CAP] at *
        omega
    · intro hh
      rw [hsend]
      simp only []
      exact hmm
    · intro _
      rw [hsend]
      refine ⟨rfl, by omega, ?_, ?_⟩
      · rw [hupd, epPush_not_full e msg x hf]
      · rw [hupd, epPush_not_full e msg x hf]
        simp

/-- C3, witness for the amended theorem: the 31-send state is full, its
head (0) is below Q_LEN, and its count is exactly 31. -/
theorem ep_send_full_characterization_witness :
    ((ep_send_cap c3State 1 [5] 0).2 = u64MAX - 1 ↔
      sendFullCheck (c3State.eps 0)) ∧
    ((c3State.eps 0).head < Q_LEN →
      ((ep_send_cap c3State 1 [5] 0).2 = u64MAX - 1 ↔
        epCount (c3State.eps 0) = Q_LEN - 1)) ∧
    (Q_LEN ≤ (c3State.eps 0).head →
      (ep_send_cap c3State 1 [5] 0).2 ≠ u64MAX - 1) ∧
    (¬ sendFullCheck (c3State.eps 0) →
      (ep_send_cap c3State 1 [5] 0).2 = min ([5] : List Nat).length MAX_MSG ∧
      min ([5] : List Nat).length MAX_MSG ≤ MAX_MSG ∧
      ((ep_send_cap c3State 1 [5] 0).1.eps 0).tail
        = ((c3State.eps 0).tail + 1) % U64_CAP ∧
      ((ep_send_cap c3State 1 [5] 0).1.eps 0).buf ((c3State.eps 0).tail % Q_LEN)
        = ⟨min ([5] : List Nat).length MAX_MSG, 0,
            [5].take (min ([5] : List Nat).length MAX_MSG) ++
              ((c3State.eps 0).buf ((c3State.eps 0).tail % Q_LEN)).data.drop
                (min ([5] : List Nat).length MAX_MSG)⟩) :=
  ep_send_full_characterization c3State 1 1 [5] 0 c3ops
    (by decide) (by decide) (by decide) rfl

theorem updEp_self (st : KState) (epi : Nat) :
    updEp st epi (fun _ => st.eps epi) = st := by
  unfold updEp
  cases st with
  | mk procs current eps next_ep next_cr3 rsp0 inited mem =>
    simp only [KState.mk.injEq, and_true, true_and]
    funext i
    by_cases hi : i = epi
    · subst hi; rw [if_pos rfl]
    · rw [if_neg hi]

theorem has_other_runnable_false (st : KState)
    (hno : ∀ pid < MAX_PROCS, pid ≠ st.current →
      ¬((st.procs pid).alive = true ∧ (st.procs pid).runnable = true)) :
    has_other_runnable st = false := by
  unfold has_other_runnable
  rw [List.any_eq_false]
  intro pid hpid
  simp only [List.mem_range] at hpid
  by_cases hc : pid = st.current
  · simp [hc]
  · intro hcontra
    simp only [Bool.and_eq_true, bne_iff_ne, ne_eq] at hcontra
    exact hno pid hpid hc ⟨hcontra.1.2, hcontra.2⟩

/-- C5: `IPC_RECV` with a valid capability on an endpoint with an empty
queue, when no other process is both alive and runnable, stores MAX-2 in
the caller saved RAX, pushes nothing onto any waiter list (all endpoints
are untouched), leaves every other process slot and the caller runnable
flag unchanged, and returns switch value 0 (no task switch). -/
theorem ipc_recv_empty_nonblocking (st : KState) (epid : Nat)
    (hcap : cap_lookup_current st
      ((st.procs st.current).frame.rdi % 2 ^ 32) = some epid)
    (hepi : epid - 1 < MAX_ENDPOINTS)
    (hempty : (st.eps (epid - 1)).head = (st.eps (epid - 1)).tail)
    (hno : ∀ pid < MAX_PROCS, pid ≠ st.current →
      ¬((st.procs pid).alive = true ∧ (st.procs pid).runnable = true)) :
    (syscall_ipc_recv st).2 = 0 ∧
    (∀ i, (syscall_ipc_recv st).1.eps i = st.eps i) ∧
    (∀ i, i ≠ st.current → (syscall_ipc_recv st).1.procs i = st.procs i) ∧
    ((syscall_ipc_recv st).1.procs st.current).runnable
      = (st.procs st.current).runnable ∧
    ((syscall_ipc_recv st).1.procs st.current).frame.rax = u64MAX - 2 := by
  have hrecv : ep_recv st ((st.procs st.current).frame.rdi % 2 ^ 32)
      (min (min (st.procs st.current).frame.rdx 1024) 256)
      = (st, (u64MAX - 2, [])) := by
    unfold ep_recv ep_recv_cap
    rw [hcap]
    simp only []
    rw [if_neg (by omega)]
    rw [epPop_empty _ _ hempty]
    rw [updEp_self]
  have hor : has_other_runnable st = false := has_other_runnable_false st hno
  have hres : syscall_ipc_recv st = (setRax st (u64MAX - 2), 0) := by
    unfold syscall_ipc_recv
    simp only []
    rw [hrecv]
    simp [hor]
  rw [hres]
  refine ⟨rfl, fun i => rfl, ?_, ?_, ?_⟩
  · intro i hi
    unfold setRax updProc
    simp only []
    rw [if_neg hi]
  · unfold setRax updProc
    simp
  · unfold setRax updProc
    simp

/-- C5, witness: in the concrete single-process state, the empty receive
returns MAX-2 without blocking or switching. -/
theorem ipc_recv_empty_nonblocking_witness :
    (syscall_ipc_recv w5State).2 = 0 ∧
    (∀ i, (syscall_ipc_recv w5State).1.eps i = w5State.eps i) ∧
    (∀ i, i ≠ w5State.current →
      (syscall_ipc_recv w5State).1.procs i = w5State.procs i) ∧
    ((syscall_ipc_recv w5State).1.procs w5State.current).runnable
      = (w5State.procs w5State.current).runnable ∧
    ((syscall_ipc_recv w5State).1.procs w5State.current).frame.rax
      = u64MAX - 2 :=
  ipc_recv_empty_nonblocking w5State 1 (by decide) (by decide) (by decide)
    (by decide)

theorem updProc_procs_self (st : KState) (pid : Nat) (f : Proc → Proc) :
    (updProc st pid f).procs pid = f (st.procs pid) := by
  unfold updProc; simp

theorem updProc_procs_other (st : KState) (pid : Nat) (f : Proc → Proc)
    (i : Nat) (h : i ≠ pid) : (updProc st pid f).procs i = st.procs i := by
  unfold updProc
  simp only []
  rw [if_neg h]

theorem cap_lookup_ne_zero (st : KState) (c e : Nat)
    (h : cap_lookup_current st c = some e) : e ≠ 0 := by
  unfold cap_lookup_current at h
  by_cases h0 : c = 0
  · simp [h0] at h
  · rw [if_neg h0] at h
    simp only [] at h
    by_cases h1 : st.current ≥ MAX_PROCS ∨ c - 1 ≥ 32
    · simp [h1] at h
    · rw [if_neg h1] at h
      split at h
      · exact absurd h (by simp)
      · next h2 =>
        simp only [Option.some.injEq] at h
        rw [← h]
        exact h2

/-- C2: a send on a valid capability whose endpoint has an empty queue and
a waiting blocked receiver (alive, with a translatable buffer) delivers
directly: nothing is enqueued (every endpoint queue is unchanged), the
popped waiter becomes runnable, its saved RAX is the delivered length
min(sender len, receiver max, 256), and the sender gets that same value. -/
theorem ipc_send_direct_delivery (st : KState) (epid pid : Nat)
    (data : List Nat)
    (hcap : cap_lookup_current st
      ((st.procs st.current).frame.rdi % 2 ^ 32) = some epid)
    (hepi : epid - 1 < MAX_ENDPOINTS)
    (hempty : (st.eps (epid - 1)).head = (st.eps (epid - 1)).tail)
    (hw : (st.eps (epid - 1)).wait_head ≠ (st.eps (epid - 1)).wait_tail)
    (hpid : (st.eps (epid - 1)).waiters
      ((st.eps (epid - 1)).wait_head % MAX_WAITERS) = pid)
    (hpid8 : pid < MAX_PROCS)
    (hpidnc : pid ≠ st.current)
    (halive : (st.procs pid).alive = true)
    (hin : user_copy_in st.mem (curCr3 st) (st.procs st.current).frame.rsi
      (min (min (st.procs st.current).frame.rdx 1024) 256) = some data)
    (hout : (user_copy_out_in st.mem (st.procs pid).cr3
      (st.procs pid).frame.rsi
      (data.take (min (min (min (st.procs pid).frame.rdx 1024) 256)
        data.length))).2 = some ()) :
    (syscall_ipc_send st).2 = 0 ∧
    ((syscall_ipc_send st).1.procs pid).runnable = true ∧
    ((syscall_ipc_send st).1.procs pid).frame.rax
      = min (min (st.procs st.current).frame.rdx
          (st.procs pid).frame.rdx) 256 ∧
    ((syscall_ipc_send st).1.procs st.current).frame.rax
      = min (min (st.procs st.current).frame.rdx
          (st.procs pid).frame.rdx) 256 ∧
    (∀ j, ((syscall_ipc_send st).1.eps j).head = (st.eps j).head ∧
      ((syscall_ipc_send st).1.eps j).tail = (st.eps j).tail ∧
      ((syscall_ipc_send st).1.eps j).buf = (st.eps j).buf) := by
  have hez := cap_lookup_ne_zero st _ _ hcap
  have hdlen : data.length
      = min (min (st.procs st.current).frame.rdx 1024) 256 :=
    user_copy_in_length st.mem (curCr3 st) _ _ data hin
  set st1 : KState := updEp st (epid - 1) (fun e0 =>
    { e0 with wait_head := (e0.wait_head + 1) % U64_CAP }) with hst1
  have hpop : waiter_pop st epid = some (st1, pid) := by
    unfold waiter_pop
    rw [if_neg hez]
    simp only []
    rw [if_neg (by omega)]
    rw [if_neg hw, hpid]
  set nd : Nat := min (min (min (st1.procs pid).frame.rdx 1024) 256)
    data.length with hnd
  have hcr3 : proc_cr3 st1 pid = some (st1.procs pid).cr3 := by
    unfold proc_cr3
    rw [if_neg (by omega)]
  set wres := user_copy_out_in st1.mem (st1.procs pid).cr3
      (st1.procs pid).frame.rsi (data.take nd) with hwres
  have h2 : wres.2 = some () := hout
  set st2 : KState := { st1 with mem := wres.1 } with hst2
  set st3 : KState := updProc st2 pid (fun p =>
    { p with frame := { p.frame with rax := nd, rdx := 0 } }) with hst3
  have hdel : deliver_ipc st1 pid data 0 = (wake st3 pid, nd) := by
    unfold deliver_ipc
    rw [hcr3]
    simp only []
    rw [← hnd, ← hwres, h2]
    rfl
  have hsend : syscall_ipc_send st = (setRax (wake st3 pid) nd, 0) := by
    unfold syscall_ipc_send
    simp only []
    rw [hin]
    simp only []
    rw [hcap]
    simp only []
    rw [hpop]
    simp only []
    rw [hdel]
  have hneq : nd = min (min (st.procs st.current).frame.rdx
      (st.procs pid).frame.rdx) 256 := by
    have hp1 : (st1.procs pid).frame.rdx = (st.procs pid).frame.rdx := rfl
    rw [hnd, hdlen, hp1]
    omega
  have halive3 : (st3.procs pid).alive = true := by
    rw [hst3, updProc_procs_self]
    exact halive
  have hwake : wake st3 pid = updProc st3 pid
      (fun p => { p with runnable := true, blocked_ep := 0 }) := by
    unfold wake
    rw [if_neg (by omega), if_pos halive3]
  have hcur : (wake st3 pid).current = st.current := by
    rw [hwake]; rfl
  have hsetprocs : ∀ i, i ≠ st.current →
      (setRax (wake st3 pid) nd).procs i = (wake st3 pid).procs i := by
    intro i hi
    unfold setRax
    rw [hcur]
    exact updProc_procs_other _ _ _ _ hi
  rw [hsend]
  refine ⟨rfl, ?_, ?_, ?_, ?_⟩
  · show ((setRax (wake st3 pid) nd).procs pid).runnable = true
    rw [hsetprocs pid hpidnc, hwake, updProc_procs_self]
  · show ((setRax (wake st3 pid) nd).procs pid).frame.rax = _
    rw [hsetprocs pid hpidnc, hwake, updProc_procs_self]
    show (st3.procs pid).frame.rax = _
    rw [hst3, updProc_procs_self]
    exact hneq
  · show ((setRax (wake st3 pid) nd).procs st.current).frame.rax = _
    unfold setRax
    rw [hcur, updProc_procs_self]
    exact hneq
  · intro j
    have heps : (setRax (wake st3 pid) nd).eps j = st1.eps j := by
      rw [hwake]
      rfl
    have heps2 : st1.eps j = if j = epid - 1 then
        { st.eps j with wait_head := ((st.eps j).wait_head + 1) % U64_CAP }
      else st.eps j := rfl
    rw [heps, heps2]
    by_cases hj : j = epid - 1
    · rw [if_pos hj]
      exact ⟨rfl, rfl, rfl⟩
    · rw [if_neg hj]
      exact ⟨rfl, rfl, rfl⟩

/-- C2, witness: in the concrete two-process state, the zero-length send on
capability 1 wakes the blocked receiver with RAX = 0 and enqueues nothing. -/
theorem ipc_send_direct_delivery_witness :
    (syscall_ipc_send w2State).2 = 0 ∧
    ((syscall_ipc_send w2State).1.procs 1).runnable = true ∧
    ((syscall_ipc_send w2State).1.procs 1).frame.rax
      = min (min (w2State.procs w2State.current).frame.rdx
          (w2State.procs 1).frame.rdx) 256 ∧
    ((syscall_ipc_send w2State).1.procs w2State.current).frame.rax
      = min (min (w2State.procs w2State.current).frame.rdx
          (w2State.procs 1).frame.rdx) 256 ∧
    (∀ j, ((syscall_ipc_send w2State).1.eps j).head = (w2State.eps j).head ∧
      ((syscall_ipc_send w2State).1.eps j).tail = (w2State.eps j).tail ∧
      ((syscall_ipc_send w2State).1.eps j).buf = (w2State.eps j).buf) :=
  ipc_send_direct_delivery w2State 1 1 []
    (by decide) (by decide) (by decide) (by decide) (by decide) (by decide)
    (by decide) (by decide) (by decide) (by decide)

theorem align_up_aligned (x : Nat) : align_up x PAGE_SIZE % PAGE_SIZE = 0 := by
  unfold align_up PAGE_SIZE
  simp [Nat.mul_mod_left]

theorem align_down_aligned (x : Nat) : align_down x PAGE_SIZE % PAGE_SIZE = 0 := by
  unfold align_down PAGE_SIZE
  simp [Nat.mul_mod_left]

theorem align_up_lt_cap (x : Nat) : align_up x PAGE_SIZE < U64_CAP := by
  unfold align_up PAGE_SIZE
  simp only [if_neg (by omega : ¬ (4096 : Nat) = 0)]
  have h1 : (x + (4096 - 1)) % U64_CAP < U64_CAP :=
    Nat.mod_lt _ (by simp [U64_CAP])
  have h2 : (x + (4096 - 1)) % U64_CAP / 4096 * 4096
      ≤ (x + (4096 - 1)) % U64_CAP := Nat.div_mul_le_self _ _
  omega

theorem align_down_le (x : Nat) : align_down x PAGE_SIZE ≤ x := by
  unfold align_down PAGE_SIZE
  simp only [if_neg (by omega : ¬ (4096 : Nat) = 0)]
  exact Nat.div_mul_le_self _ _

theorem satAdd_lt_cap (a b : Nat) : satAdd a b < U64_CAP := by
  unfold satAdd U64_CAP
  omega

theorem foldl_collectStep_none (regions : List MemoryRegion) :
    regions.foldl collectStep none = none := by
  induction regions with
  | nil => rfl
  | cons r rest ih => simpa [collectStep] using ih

theorem collectStep_ok (acc : List Range × Nat) (r : MemoryRegion)
    (rs : List Range) (ub : Nat)
    (hacc : ∀ x ∈ acc.1, MRangeOk x)
    (h : collectStep (some acc) r = some (rs, ub)) :
    ∀ x ∈ rs, MRangeOk x := by
  obtain ⟨rs0, ub0⟩ := acc
  unfold collectStep at h
  simp only [] at h
  by_cases hk : r.kind ≠ 1
  · rw [if_pos hk] at h
    simp only [Option.some.injEq, Prod.mk.injEq] at h
    intro x hx
    exact hacc x (by rw [← h.1] at hx; exact hx)
  · rw [if_neg hk] at h
    by_cases he : align_down (satAdd r.base r.len) PAGE_SIZE ≤ align_up r.base PAGE_SIZE
    · rw [if_pos he] at h
      simp only [Option.some.injEq, Prod.mk.injEq] at h
      intro x hx
      exact hacc x (by rw [← h.1] at hx; exact hx)
    · rw [if_neg he] at h
      by_cases hc : rs0.length ≥ MAX_RANGES
      · rw [if_pos hc] at h
        simp at h
      · rw [if_neg hc] at h
        simp only [Option.some.injEq, Prod.mk.injEq] at h
        intro x hx
        rw [← h.1] at hx
        rcases List.mem_append.mp hx with hx1 | hx2
        · exact hacc x hx1
        · have hx3 : x = Range.mk (align_up r.base PAGE_SIZE)
              (align_down (satAdd r.base r.len) PAGE_SIZE) := by
            simpa using hx2
          subst hx3
          refine ⟨?_, ?_, ?_, ?_⟩
          · show align_up r.base PAGE_SIZE % PAGE_SIZE = 0
            exact align_up_aligned _
          · show align_down (satAdd r.base r.len) PAGE_SIZE % PAGE_SIZE = 0
            exact align_down_aligned _
          · show align_up r.base PAGE_SIZE
              ≤ align_down (satAdd r.base r.len) PAGE_SIZE
            omega
          · show align_down (satAdd r.base r.len) PAGE_SIZE < U64_CAP
            have h4 := satAdd_lt_cap r.base r.len
            have h5 := align_down_le (satAdd r.base r.len)
            omega

theorem collectUsable_ok :
    ∀ (regions : List MemoryRegion) (acc : List Range × Nat),
      (∀ x ∈ acc.1, MRangeOk x) →
      ∀ rs ub, regions.foldl collectStep (some acc) = some (rs, ub) →
      ∀ x ∈ rs, MRangeOk x := by
  intro regions
  induction regions with
  | nil =>
    intro acc hacc rs ub h
    simp only [List.foldl_nil, Option.some.injEq] at h
    intro x hx
    exact hacc x (by rw [h]; exact hx)
  | cons r rest ih =>
    intro acc hacc rs ub h
    simp only [List.foldl_cons] at h
    cases hstep : collectStep (some acc) r with
    | none =>
      rw [hstep, foldl_collectStep_none] at h
      simp at h
    | some acc1 =>
      rw [hstep] at h
      exact ih acc1 (collectStep_ok acc r acc1.1 acc1.2 hacc
        (by rw [hstep])) rs ub h

theorem insRange_mem (x : Range) :
    ∀ (l : List Range) (a : Range), a ∈ insRange x l → a = x ∨ a ∈ l := by
  intro l
  induction l with
  | nil =>
    intro a ha
    simp [insRange] at ha
    exact Or.inl ha
  | cons y ys ih =>
    intro a ha
    unfold insRange at ha
    by_cases hc : y.base ≤ x.base
    · rw [if_pos hc] at ha
      rcases List.mem_cons.mp ha with h1 | h2
      · exact Or.inr (by simp [h1])
      · rcases ih a h2 with h3 | h4
        · exact Or.inl h3
        · exact Or.inr (by simp [h4])
    · rw [if_neg hc] at ha
      rcases List.mem_cons.mp ha with h1 | h2
      · exact Or.inl h1
      · exact Or.inr h2

theorem insRange_sorted (x : Range) :
    ∀ (l : List Range),
      l.Pairwise (fun a b => a.base ≤ b.base) →
      (insRange x l).Pairwise (fun a b => a.base ≤ b.base) := by
  intro l
  induction l with
  | nil => intro _; simp [insRange]
  | cons y ys ih =>
    intro hs
    rw [List.pairwise_cons] at hs
    unfold insRange
    by_cases hc : y.base ≤ x.base
    · rw [if_pos hc]
      rw [List.pairwise_cons]
      refine ⟨?_, ih hs.2⟩
      intro a ha
      rcases insRange_mem x ys a ha with h1 | h2
      · rw [h1]; exact hc
      · exact hs.1 a h2
    · rw [if_neg hc]
      rw [List.pairwise_cons]
      refine ⟨?_, List.pairwise_cons.mpr hs⟩
      intro a ha
      rcases List.mem_cons.mp ha with h1 | h2
      · rw [h1]; omega
      · have := hs.1 a h2
        omega

theorem sort_by_base_aux :
    ∀ (l acc : List Range),
      acc.Pairwise (fun a b => a.base ≤ b.base) →
      (l.foldl (fun acc x => insRange x acc) acc).Pairwise
        (fun a b => a.base ≤ b.base) ∧
      ∀ a ∈ l.foldl (fun acc x => insRange x acc) acc, a ∈ l ∨ a ∈ acc := by
  intro l
  induction l with
  | nil =>
    intro acc hacc
    exact ⟨hacc, fun a ha => Or.inr ha⟩
  | cons x rest ih =>
    intro acc hacc
    simp only [List.foldl_cons]
    obtain ⟨hs, hm⟩ := ih (insRange x acc) (insRange_sorted x acc hacc)
    refine ⟨hs, ?_⟩
    intro a ha
    rcases hm a ha with h1 | h2
    · exact Or.inl (by simp [h1])
    · rcases insRange_mem x acc a h2 with h3 | h4
      · exact Or.inl (by simp [h3])
      · exact Or.inr h4

theorem sort_by_base_sorted (l : List Range) :
    (sort_by_base l).Pairwise (fun a b => a.base ≤ b.base) :=
  (sort_by_base_aux l [] (by simp)).1

theorem sort_by_base_mem (l : List Range) (a : Range) (h : a ∈ sort_by_base l) :
    a ∈ l := by
  rcases (sort_by_base_aux l [] (by simp)).2 a h with h1 | h2
  · exact h1
  · simp at h2

theorem mergeGo_pred :
    ∀ (l : List Range) (cur : Range),
      MRangeOk cur → (∀ r ∈ l, MRangeOk r) →
      ∀ z ∈ mergeGo cur l, MRangeOk z := by
  intro l
  induction l with
  | nil =>
    intro cur hcur _ z hz
    simp [mergeGo] at hz
    rw [hz]; exact hcur
  | cons r rest ih =>
    intro cur hcur hl z hz
    unfold mergeGo at hz
    by_cases hc : r.base ≤ cur.endp
    · rw [if_pos hc] at hz
      refine ih _ ?_ (fun y hy => hl y (by simp [hy])) z hz
      have hr : MRangeOk r := hl r (by simp)
      obtain ⟨c1, c2, c3, c4⟩ := hcur
      obtain ⟨r1, r2, r3, r4⟩ := hr
      refine ⟨c1, ?_, ?_, ?_⟩
      · show max cur.endp r.endp % PAGE_SIZE = 0
        rcases Nat.le_total cur.endp r.endp with h | h
        · rw [Nat.max_eq_right h]; exact r2
        · rw [Nat.max_eq_left h]; exact c2
      · show cur.base ≤ max cur.endp r.endp
        omega
      · show max cur.endp r.endp < U64_CAP
        omega
    · rw [if_neg hc] at hz
      rcases List.mem_cons.mp hz with h1 | h2
      · rw [h1]; exact hcur
      · exact ih r (hl r (by simp)) (fun y hy => hl y (by simp [hy])) z h2

theorem mergeGo_sep :
    ∀ (l : List Range) (cur : Range),
      (cur :: l).Pairwise (fun a b => a.base ≤ b.base) →
      (mergeGo cur l).Pairwise (fun a b => a.endp ≤ b.base) ∧
      ∀ z ∈ mergeGo cur l, cur.base ≤ z.base := by
  intro l
  induction l with
  | nil =>
    intro cur _
    constructor
    · simp [mergeGo]
    · intro z hz
      simp [mergeGo] at hz
      rw [hz]
  | cons r rest ih =>
    intro cur hs
    rw [List.pairwise_cons] at hs
    obtain ⟨hcur_le, hs2⟩ := hs
    unfold mergeGo
    by_cases hc : r.base ≤ cur.endp
    · rw [if_pos hc]
      have hsorted : ({ cur with endp := max cur.endp r.endp } :: rest).Pairwise
          (fun a b => a.base ≤ b.base) := by
        rw [List.pairwise_cons]
        refine ⟨?_, (List.pairwise_cons.mp hs2).2⟩
        intro a ha
        show cur.base ≤ a.base
        exact hcur_le a (by simp [ha])
      obtain ⟨h1, h2⟩ := ih { cur with endp := max cur.endp r.endp } hsorted
      exact ⟨h1, fun z hz => h2 z hz⟩
    · rw [if_neg hc]
      obtain ⟨h1, h2⟩ := ih r hs2
      constructor
      · rw [List.pairwise_cons]
        refine ⟨?_, h1⟩
        intro a ha
        have := h2 a ha
        omega
      · intro z hz
        rcases List.mem_cons.mp hz with hz1 | hz2
        · rw [hz1]
        · have := h2 z hz2
          have : r.base ≤ z.base := h2 z hz2
          have hcr : cur.base ≤ r.base := hcur_le r (by simp)
          omega

theorem merge_adjacent_props (l : List Range)
    (hok : ∀ r ∈ l, MRangeOk r)
    (hs : l.Pairwise (fun a b => a.base ≤ b.base)) :
    (∀ r ∈ merge_adjacent l, MRangeOk r) ∧
    (merge_adjacent l).Pairwise (fun a b => a.endp ≤ b.base) := by
  cases l with
  | nil => simp [merge_adjacent]
  | cons r rest =>
    unfold merge_adjacent
    constructor
    · exact mergeGo_pred rest r (hok r (by simp))
        (fun y hy => hok y (by simp [hy]))
    · exact (mergeGo_sep rest r hs).1

theorem subtract_reserved_master (rb re : Nat)
    (hrb : rb % PAGE_SIZE = 0) (hre : re % PAGE_SIZE = 0)
    (hle : rb ≤ re) (hcap : re < U64_CAP) :
    ∀ (l : List Range) (used : Nat) (l' : List Range),
      subtract_reserved rb re used l = some l' →
      (∀ r ∈ l, MRangeOk r) →
      l.Pairwise (fun a b => a.endp ≤ b.base) →
      (∀ p ∈ l', MRangeOk p) ∧
      (∀ p ∈ l', ∃ r ∈ l, r.base ≤ p.base ∧ p.endp ≤ r.endp) ∧
      (∀ p ∈ l', p.endp ≤ rb ∨ re ≤ p.base) ∧
      l'.Pairwise (fun a b => a.endp ≤ b.base) := by
  intro l
  induction l with
  | nil =>
    intro used l' h _ _
    simp only [subtract_reserved, Option.some.injEq] at h
    subst h
    simp
  | cons r rest ih =>
    intro used l' h hok hsep
    have hok_r : MRangeOk r := hok r (by simp)
    have hok_rest : ∀ y ∈ rest, MRangeOk y := fun y hy => hok y (by simp [hy])
    rw [List.pairwise_cons] at hsep
    obtain ⟨hrel, hsep_rest⟩ := hsep
    unfold subtract_reserved at h
    by_cases h1 : overlaps r.base r.endp rb re
    · rw [if_neg (not_not_intro h1)] at h
      obtain ⟨hov1, hov2⟩ := h1
      by_cases h2 : rb ≤ r.base ∧ re ≥ r.endp
      · rw [if_pos h2] at h
        obtain ⟨c1, c2, c3, c4⟩ := ih used l' h hok_rest hsep_rest
        exact ⟨c1, fun p hp => by
            obtain ⟨r2, hr2, hb, he⟩ := c2 p hp
            exact ⟨r2, by simp [hr2], hb, he⟩,
          c3, c4⟩
      · rw [if_neg h2] at h
        by_cases h3 : rb ≤ r.base ∧ re < r.endp
        · rw [if_pos h3] at h
          obtain ⟨tl, htl, hl'⟩ := Option.map_eq_some'.mp h
          obtain ⟨c1, c2, c3, c4⟩ := ih (used + 1) tl htl hok_rest hsep_rest
          subst hl'
          obtain ⟨k1, k2, k3, k4⟩ := hok_r
          refine ⟨?_, ?_, ?_, ?_⟩
          · intro p hp
            rcases List.mem_cons.mp hp with hp1 | hp2
            · subst hp1
              exact ⟨hre, k2, by show re ≤ r.endp; omega, k4⟩
            · exact c1 p hp2
          · intro p hp
            rcases List.mem_cons.mp hp with hp1 | hp2
            · subst hp1
              exact ⟨r, by simp, by show r.base ≤ re; omega,
                by show r.endp ≤ r.endp; omega⟩
            · obtain ⟨r2, hr2, hb, hee⟩ := c2 p hp2
              exact ⟨r2, by simp [hr2], hb, hee⟩
          · intro p hp
            rcases List.mem_cons.mp hp with hp1 | hp2
            · subst hp1
              exact Or.inr (by show re ≤ re; omega)
            · exact c3 p hp2
          · rw [List.pairwise_cons]
            refine ⟨?_, c4⟩
            intro p hp
            obtain ⟨r2, hr2, hb, _⟩ := c2 p hp
            have := hrel r2 hr2
            show r.endp ≤ p.base
            omega
        · rw [if_neg h3] at h
          by_cases h4 : rb > r.base ∧ re ≥ r.endp
          · rw [if_pos h4] at h
            obtain ⟨tl, htl, hl'⟩ := Option.map_eq_some'.mp h
            obtain ⟨c1, c2, c3, c4⟩ := ih (used + 1) tl htl hok_rest hsep_rest
            subst hl'
            obtain ⟨k1, k2, k3, k4⟩ := hok_r
            refine ⟨?_, ?_, ?_, ?_⟩
            · intro p hp
              rcases List.mem_cons.mp hp with hp1 | hp2
              · subst hp1
                exact ⟨k1, hrb, by show r.base ≤ rb; omega,
                  by show rb < U64_CAP; omega⟩
              · exact c1 p hp2
            · intro p hp
              rcases List.mem_cons.mp hp with hp1 | hp2
              · subst hp1
                exact ⟨r, by simp, by show r.base ≤ r.base; omega,
                  by show rb ≤ r.endp; omega⟩
              · obtain ⟨r2, hr2, hb, hee⟩ := c2 p hp2
                exact ⟨r2, by simp [hr2], hb, hee⟩
            · intro p hp
              rcases List.mem_cons.mp hp with hp1 | hp2
              · subst hp1
                exact Or.inl (by show rb ≤ rb; omega)
              · exact c3 p hp2
            · rw [List.pairwise_cons]
              refine ⟨?_, c4⟩
              intro p hp
              obtain ⟨r2, hr2, hb, _⟩ := c2 p hp
              have := hrel r2 hr2
              show rb ≤ p.base
              omega
          · rw [if_neg h4] at h
            by_cases h5 : used + 1 + rest.length ≥ MAX_RANGES
            · rw [if_pos h5] at h
              simp at h
            · rw [if_neg h5] at h
              obtain ⟨tl, htl, hl'⟩ := Option.map_eq_some'.mp h
              obtain ⟨c1, c2, c3, c4⟩ := ih (used + 2) tl htl hok_rest hsep_rest
              subst hl'
              obtain ⟨k1, k2, k3, k4⟩ := hok_r
              have hm1 : r.base < rb := by
                rcases Nat.lt_or_ge r.base rb with hg | hg
                · exact hg
                · exact absurd ⟨by omega, by omega⟩ h3
              have hm2 : re < r.endp := by
                rcases Nat.lt_or_ge re r.endp with hg | hg
                · exact hg
                · exact absurd ⟨by omega, by omega⟩ h4
              refine ⟨?_, ?_, ?_, ?_⟩
              · intro p hp
                rcases List.mem_cons.mp hp with hp1 | hp2
                · subst hp1
                  exact ⟨k1, hrb, by show r.base ≤ rb; omega,
                    by show rb < U64_CAP; omega⟩
                · rcases List.mem_cons.mp hp2 with hp3 | hp4
                  · subst hp3
                    exact ⟨hre, k2, by show re ≤ r.endp; omega, k4⟩
                  · exact c1 p hp4
              · intro p hp
                rcases List.mem_cons.mp hp with hp1 | hp2
                · subst hp1
                  exact ⟨r, by simp, by show r.base ≤ r.base; omega,
                    by show rb ≤ r.endp; omega⟩
                · rcases List.mem_cons.mp hp2 with hp3 | hp4
                  · subst hp3
                    exact ⟨r, by simp, by show r.base ≤ re; omega,
                      by show r.endp ≤ r.endp; omega⟩
                  · obtain ⟨r2, hr2, hb, hee⟩ := c2 p hp4
                    exact ⟨r2, by simp [hr2], hb, hee⟩
              · intro p hp
                rcases List.mem_cons.mp hp with hp1 | hp2
                · subst hp1
                  exact Or.inl (by show rb ≤ rb; omega)
                · rcases List.mem_cons.mp hp2 with hp3 | hp4
                  · subst hp3
                    exact Or.inr (by show re ≤ re; omega)
                  · exact c3 p hp4
              · rw [List.pairwise_cons]
                constructor
                · intro p hp
                  rcases List.mem_cons.mp hp with hp1 | hp2
                  · subst hp1
                    show rb ≤ re
                    exact hle
                  · obtain ⟨r2, hr2, hb, _⟩ := c2 p hp2
                    have := hrel r2 hr2
                    show rb ≤ p.base
                    omega
                · rw [List.pairwise_cons]
                  refine ⟨?_, c4⟩
                  intro p hp
                  obtain ⟨r2, hr2, hb, _⟩ := c2 p hp
                  have := hrel r2 hr2
                  show r.endp ≤ p.base
                  omega
    · rw [if_pos h1] at h
      obtain ⟨tl, htl, hl'⟩ := Option.map_eq_some'.mp h
      obtain ⟨c1, c2, c3, c4⟩ := ih (used + 1) tl htl hok_rest hsep_rest
      subst hl'
      refine ⟨?_, ?_, ?_, ?_⟩
      · intro p hp
        rcases List.mem_cons.mp hp with hp1 | hp2
        · subst hp1; exact hok_r
        · exact c1 p hp2
      · intro p hp
        rcases List.mem_cons.mp hp with hp1 | hp2
        · subst hp1
          exact ⟨p, by simp, by omega, by omega⟩
        · obtain ⟨r2, hr2, hb, hee⟩ := c2 p hp2
          exact ⟨r2, by simp [hr2], hb, hee⟩
      · intro p hp
        rcases List.mem_cons.mp hp with hp1 | hp2
        · subst hp1
          unfold overlaps at h1
          push_neg at h1
          rcases Nat.lt_or_ge p.base re with hg | hg
          · exact Or.inl (by have := h1 hg; omega)
          · exact Or.inr hg
        · exact c3 p hp2
      · rw [List.pairwise_cons]
        refine ⟨?_, c4⟩
        intro p hp
        obtain ⟨r2, hr2, hb, _⟩ := c2 p hp
        have := hrel r2 hr2
        omega

theorem foldl_subtractStep_none (regions : List MemoryRegion) :
    regions.foldl subtractStep none = none := by
  induction regions with
  | nil => rfl
  | cons r rest ih => simpa [subtractStep] using ih

theorem subtractAll_props :
    ∀ (regions : List MemoryRegion) (rs : List Range),
      (∀ r ∈ rs, MRangeOk r) →
      rs.Pairwise (fun a b => a.endp ≤ b.base) →
      ∀ rs', regions.foldl subtractStep (some rs) = some rs' →
      (∀ r ∈ rs', MRangeOk r) ∧
      rs'.Pairwise (fun a b => a.endp ≤ b.base) := by
  intro regions
  induction regions with
  | nil =>
    intro rs hok hsep rs' h
    simp only [List.foldl_nil, Option.some.injEq] at h
    subst h
    exact ⟨hok, hsep⟩
  | cons r rest ih =>
    intro rs hok hsep rs' h
    simp only [List.foldl_cons] at h
    cases hstep : subtractStep (some rs) r with
    | none =>
      rw [hstep, foldl_subtractStep_none] at h
      simp at h
    | some rs1 =>
      rw [hstep] at h
      have hstep_ok : (∀ y ∈ rs1, MRangeOk y) ∧
          rs1.Pairwise (fun a b => a.endp ≤ b.base) := by
        unfold subtractStep at hstep
        simp only [] at hstep
        by_cases hk : r.kind = 1
        · rw [if_pos hk] at hstep
          simp only [Option.some.injEq] at hstep
          subst hstep
          exact ⟨hok, hsep⟩
        · rw [if_neg hk] at hstep
          by_cases hl0 : r.len = 0
          · rw [if_pos hl0] at hstep
            simp only [Option.some.injEq] at hstep
            subst hstep
            exact ⟨hok, hsep⟩
          · rw [if_neg hl0] at hstep
            by_cases hsk : align_up (satAdd r.base r.len) PAGE_SIZE
                ≤ align_down r.base PAGE_SIZE
            · rw [if_pos hsk] at hstep
              simp only [Option.some.injEq] at hstep
              subst hstep
              exact ⟨hok, hsep⟩
            · rw [if_neg hsk] at hstep
              obtain ⟨c1, _, _, c4⟩ :=
                subtract_reserved_master
                  (align_down r.base PAGE_SIZE)
                  (align_up (satAdd r.base r.len) PAGE_SIZE)
                  (align_down_aligned _) (align_up_aligned _)
                  (by omega) (align_up_lt_cap _)
                  rs 0 rs1 hstep hok hsep
              exact ⟨c1, c4⟩
      exact ih rs1 hstep_ok.1 hstep_ok.2 rs' h

theorem pmm_init_inv (regions : List MemoryRegion) (pm : Pmm)
    (stats : PmmStats) (h : pmm_init regions = some (pm, stats)) :
    PmmInv pm := by
  unfold pmm_init at h
  cases hc : collectUsable regions with
  | none => rw [hc] at h; simp at h
  | some pr =>
    obtain ⟨rs0, ub⟩ := pr
    rw [hc] at h
    simp only [] at h
    by_cases h0 : rs0.length = 0
    · rw [if_pos h0] at h; simp at h
    · rw [if_neg h0] at h
      cases hs : subtractAll regions (merge_adjacent (sort_by_base rs0)) with
      | none => rw [hs] at h; simp at h
      | some rs2 =>
        rw [hs] at h
        simp only [] at h
        cases hm : subtract_reserved 0 0x100000 0 rs2 with
        | none => rw [hm] at h; simp at h
        | some rs3 =>
          rw [hm] at h
          simp only [] at h
          by_cases h4 : (rs3.filter fun r => r.base < r.endp).length = 0
          · rw [if_pos h4] at h; simp at h
          · rw [if_neg h4] at h
            simp only [Option.some.injEq, Prod.mk.injEq] at h
            have hok0 : ∀ x ∈ rs0, MRangeOk x := by
              unfold collectUsable at hc
              exact collectUsable_ok regions ([], 0) (by simp) rs0 ub hc
            have hsorted := sort_by_base_sorted rs0
            have hok1 : ∀ x ∈ sort_by_base rs0, MRangeOk x :=
              fun x hx => hok0 x (sort_by_base_mem rs0 x hx)
            obtain ⟨hok2, hsep2⟩ :=
              merge_adjacent_props (sort_by_base rs0) hok1 hsorted
            obtain ⟨hok3, hsep3⟩ := by
              unfold subtractAll at hs
              exact subtractAll_props regions _ hok2 hsep2 rs2 hs
            obtain ⟨ok4, _, avoid4, sep4⟩ :=
              subtract_reserved_master 0 0x100000
                (by decide) (by decide) (by decide) (by decide)
                rs2 0 rs3 hm hok3 hsep3
            have hpm : pm = Pmm.mk (rs3.filter fun r => r.base < r.endp) 0 :=
              h.1.symm
            rw [hpm]
            constructor
            · intro r hr
              show RangeOk r
              have hr3 : r ∈ rs3 := List.mem_of_mem_filter hr
              have hlt : r.base < r.endp := by
                have := List.of_mem_filter hr
                simpa using this
              obtain ⟨k1, k2, k3, k4⟩ := ok4 r hr3
              have hav := avoid4 r hr3
              exact ⟨k1, k2, k3, by omega, k4⟩
            · exact sep4.sublist (List.filter_sublist rs3)

theorem mem_set_cases : ∀ (l : List Range) (i : Nat) (a x : Range),
    x ∈ l.set i a → x = a ∨ x ∈ l := by
  intro l
  induction l with
  | nil => intro i a x hx; simp at hx
  | cons b t ih =>
    intro i a x hx
    cases i with
    | zero =>
      simp only [List.set] at hx
      rcases List.mem_cons.mp hx with h1 | h2
      · exact Or.inl h1
      · exact Or.inr (by simp [h2])
    | succ j =>
      simp only [List.set] at hx
      rcases List.mem_cons.mp hx with h1 | h2
      · exact Or.inr (by simp [h1])
      · rcases ih j a x h2 with h3 | h4
        · exact Or.inl h3
        · exact Or.inr (by simp [h4])

theorem allocLoop_none_ranges (need : Nat) :
    ∀ (fuel : Nat) (pm pm' : Pmm),
      allocLoop need pm fuel = (none, pm') → pm'.ranges = pm.ranges := by
  intro fuel
  induction fuel with
  | zero =>
    intro pm pm' h
    simp only [allocLoop, Prod.mk.injEq] at h
    rw [← h.2]
  | succ f ih =>
    intro pm pm' h
    unfold allocLoop at h
    by_cases hc : pm.cursor < pm.ranges.length
    · rw [dif_pos hc] at h
      by_cases h1 : (pm.ranges.get ⟨pm.cursor, hc⟩).endp
          ≤ (pm.ranges.get ⟨pm.cursor, hc⟩).base
      · rw [if_pos h1] at h
        have := ih _ _ h
        exact this
      · rw [if_neg h1] at h
        by_cases h2 : (pm.ranges.get ⟨pm.cursor, hc⟩).endp
            - (pm.ranges.get ⟨pm.cursor, hc⟩).base < need
        · rw [if_pos h2] at h
          have := ih _ _ h
          exact this
        · rw [if_neg h2] at h
          simp at h
    · rw [dif_neg hc] at h
      simp only [Prod.mk.injEq] at h
      rw [← h.2]

theorem allocLoop_some (need : Nat)
    (hform : need % PAGE_SIZE = 0 ∨ need = U64_CAP - 1) :
    ∀ (fuel : Nat) (pm : Pmm) (p : Nat) (pm' : Pmm),
      PmmInv pm →
      allocLoop need pm fuel = (some p, pm') →
      PmmInv pm' ∧ p % PAGE_SIZE = 0 ∧ 0x100000 ≤ p ∧
      need % PAGE_SIZE = 0 ∧
      (∃ r ∈ pm.ranges, r.base ≤ p ∧ p + need ≤ r.endp) ∧
      (∀ q ∈ pm'.ranges, ∃ r ∈ pm.ranges, r.base ≤ q.base ∧ q.endp ≤ r.endp) ∧
      (∀ q ∈ pm'.ranges, p + need ≤ q.base ∨ q.endp ≤ p) := by
  intro fuel
  induction fuel with
  | zero =>
    intro pm p pm' _ h
    simp [allocLoop] at h
  | succ f ih =>
    intro pm p pm' hInv h
    unfold allocLoop at h
    by_cases hc : pm.cursor < pm.ranges.length
    · rw [dif_pos hc] at h
      set r := pm.ranges.get ⟨pm.cursor, hc⟩ with hrdef
      by_cases h1 : r.endp ≤ r.base
      · rw [if_pos h1] at h
        have hres := ih { ranges := pm.ranges, cursor := pm.cursor + 1 }
          p pm' hInv h
        exact hres
      · rw [if_neg h1] at h
        by_cases h2 : r.endp - r.base < need
        · rw [if_pos h2] at h
          have hres := ih { ranges := pm.ranges, cursor := pm.cursor + 1 }
            p pm' hInv h
          exact hres
        · rw [if_neg h2] at h
          simp only [Prod.mk.injEq] at h
          obtain ⟨hp, hpm'⟩ := h
          have hpp : r.base = p := by simpa using hp
          obtain ⟨hall, hpair⟩ := hInv
          have hr_mem : r ∈ pm.ranges := by
            rw [hrdef]
            exact List.get_mem pm.ranges pm.cursor hc
          obtain ⟨k1, k2, k3, k5, k4⟩ := hall r hr_mem
          have hend_le : r.endp ≤ U64_CAP - PAGE_SIZE := by
            simp only [PAGE_SIZE] at k2 ⊢
            simp only [U64_CAP] at k4 ⊢
            omega
          have hnm : need % PAGE_SIZE = 0 := by
            rcases hform with hf | hf
            · exact hf
            · exfalso
              simp only [PAGE_SIZE, U64_CAP] at *
              omega
          have hnb : satAdd r.base need = r.base + need := by
            unfold satAdd
            simp only [PAGE_SIZE] at hend_le
            simp only [U64_CAP] at *
            omega
          have hfit : r.base + need ≤ r.endp := by omega
          set upd : Range := { r with base := satAdd r.base need } with hupd
          have hupd_base : upd.base = r.base + need := by
            rw [hupd]
            show satAdd r.base need = r.base + need
            exact hnb
          have hupd_endp : upd.endp = r.endp := rfl
          have hlen : (pm.ranges.set pm.cursor upd).length
              = pm.ranges.length := List.length_set _ _ _
          have hget_set : ∀ (j : Nat) (hj : j < pm.ranges.length),
              (pm.ranges.set pm.cursor upd).get ⟨j, by omega⟩
                = if j = pm.cursor then upd else pm.ranges.get ⟨j, hj⟩ := by
            intro j hj
            by_cases hjc : j = pm.cursor
            · subst hjc
              rw [if_pos rfl]
              simp only [List.get_eq_getElem]
              exact List.getElem_set_eq (by omega)
            · rw [if_neg hjc]
              simp only [List.get_eq_getElem]
              exact List.getElem_set_ne (fun hne => hjc hne.symm) _
          have hpair_get := List.pairwise_iff_get.mp hpair
          have hranges' : pm'.ranges = pm.ranges.set pm.cursor upd := by
            rw [← hpm']
          refine ⟨⟨?_, ?_⟩, by rw [← hpp]; exact k1, by omega, hnm, ?_, ?_, ?_⟩
          · intro q hq
            rw [hranges'] at hq
            rcases mem_set_cases _ _ _ _ hq with hq1 | hq2
            · subst hq1
              refine ⟨?_, ?_, ?_, ?_, ?_⟩
              · rw [hupd_base]
                simp only [PAGE_SIZE] at *
                omega
              · rw [hupd_endp]; exact k2
              · rw [hupd_base, hupd_endp]; omega
              · rw [hupd_base]; omega
              · rw [hupd_endp]; exact k4
            · exact hall q hq2
          · rw [hranges']
            rw [List.pairwise_iff_get]
            intro i j hij
            have hi : (i : Nat) < pm.ranges.length := by
              have := i.isLt
              omega
            have hj : (j : Nat) < pm.ranges.length := by
              have := j.isLt
              omega
            have hgi := hget_set i hi
            have hgj := hget_set j hj
            have hci : (⟨(i : Nat), by omega⟩ : Fin (pm.ranges.set pm.cursor upd).length) = i := by
              apply Fin.ext
              rfl
            have hcj : (⟨(j : Nat), by omega⟩ : Fin (pm.ranges.set pm.cursor upd).length) = j := by
              apply Fin.ext
              rfl
            rw [hci] at hgi
            rw [hcj] at hgj
            rw [hgi, hgj]
            by_cases hic : (i : Nat) = pm.cursor
            · rw [if_pos hic]
              have hjc : ¬ (j : Nat) = pm.cursor := by
                intro hh
                have : (i : Nat) < (j : Nat) := hij
                omega
              rw [if_neg hjc]
              have := hpair_get ⟨i, hi⟩ ⟨j, hj⟩ (by simpa using hij)
              rw [hupd_endp]
              have hri : pm.ranges.get ⟨(i : Nat), hi⟩ = r := by
                rw [hrdef]
                congr 1
                exact Fin.ext hic
              rw [hri] at this
              exact this
            · rw [if_neg hic]
              by_cases hjc : (j : Nat) = pm.cursor
              · rw [if_pos hjc]
                have := hpair_get ⟨i, hi⟩ ⟨j, hj⟩ (by simpa using hij)
                have hrj : pm.ranges.get ⟨(j : Nat), hj⟩ = r := by
                  rw [hrdef]
                  congr 1
                  exact Fin.ext hjc
                rw [hrj] at this
                rw [hupd_base, hnb] at *
                show (pm.ranges.get ⟨(i : Nat), hi⟩).endp ≤ r.base + need
                omega
              · rw [if_neg hjc]
                exact hpair_get ⟨i, hi⟩ ⟨j, hj⟩ (by simpa using hij)
          · exact ⟨r, hr_mem, by omega, by omega⟩
          · intro q hq
            rw [hranges'] at hq
            rcases mem_set_cases _ _ _ _ hq with hq1 | hq2
            · subst hq1
              exact ⟨r, hr_mem, by rw [hupd_base]; omega, by rw [hupd_endp]⟩
            · exact ⟨q, hq2, by omega, by omega⟩
          · intro q hq
            rw [hranges'] at hq
            rcases List.mem_iff_get.mp hq with ⟨⟨j, hjlen⟩, hqj⟩
            have hj : j < pm.ranges.length := by
              rw [List.length_set] at hjlen
              exact hjlen
            have hgj := hget_set j hj
            have hcj : (⟨j, by omega⟩ : Fin (pm.ranges.set pm.cursor upd).length)
                = ⟨j, hjlen⟩ := by
              apply Fin.ext
              rfl
            rw [hcj] at hgj
            rw [hqj] at hgj
            by_cases hjc : j = pm.cursor
            · rw [if_pos hjc] at hgj
              left
              rw [hgj, hupd_base]
              omega
            · rw [if_neg hjc] at hgj
              rcases Nat.lt_or_ge j pm.cursor with hlt | hge
              · right
                have := hpair_get ⟨j, hj⟩ ⟨pm.cursor, hc⟩ (by simpa using hlt)
                rw [hgj]
                rw [← hrdef] at this
                omega
              · left
                have hgt : pm.cursor < j := by omega
                have := hpair_get ⟨pm.cursor, hc⟩ ⟨j, hj⟩ (by simpa using hgt)
                rw [hgj]
                rw [← hrdef] at this
                omega
    · rw [dif_neg hc] at h
      simp at h

theorem alloc_pages_some (pm : Pmm) (pages p : Nat) (pm' : Pmm)
    (hInv : PmmInv pm) (h : alloc_pages pm pages = (some p, pm')) :
    PmmInv pm' ∧ p % PAGE_SIZE = 0 ∧ 0x100000 ≤ p ∧
    (∃ r ∈ pm.ranges, r.base ≤ p ∧ p + pages * PAGE_SIZE ≤ r.endp) ∧
    (∀ q ∈ pm'.ranges, ∃ r ∈ pm.ranges, r.base ≤ q.base ∧ q.endp ≤ r.endp) ∧
    (∀ q ∈ pm'.ranges, p + pages * PAGE_SIZE ≤ q.base ∨ q.endp ≤ p) := by
  unfold alloc_pages at h
  by_cases hz : pages = 0
  · rw [if_pos hz] at h; simp at h
  · rw [if_neg hz] at h
    have hform : satMul pages PAGE_SIZE % PAGE_SIZE = 0 ∨
        satMul pages PAGE_SIZE = U64_CAP - 1 := by
      unfold satMul
      rcases le_or_lt (pages * PAGE_SIZE) (U64_CAP - 1) with hc | hc
      · left
        rw [min_eq_left hc]
        simp [PAGE_SIZE, Nat.mul_mod_left]
      · right
        rw [min_eq_right (by omega)]
    obtain ⟨c1, c2, c3, c4, c5, c6, c7⟩ :=
      allocLoop_some _ hform _ pm p pm' hInv h
    have hmul : satMul pages PAGE_SIZE = pages * PAGE_SIZE := by
      unfold satMul at c4 ⊢
      rcases le_or_lt (pages * PAGE_SIZE) (U64_CAP - 1) with hc | hc
      · rw [min_eq_left hc]
      · rw [min_eq_right (by omega)] at c4
        exfalso
        simp only [U64_CAP, PAGE_SIZE] at c4
        omega
    rw [hmul] at c5 c7
    exact ⟨c1, c2, c3, c5, c6, c7⟩

theorem allocBlocks_good_aux :
    ∀ (reqs : List Nat) (pm : Pmm), PmmInv pm →
      goodBlocks (allocBlocks pm reqs) ∧
      ∀ b ∈ allocBlocks pm reqs, ∃ r ∈ pm.ranges,
        r.base ≤ b.1 ∧ b.1 + b.2 * PAGE_SIZE ≤ r.endp := by
  intro reqs
  induction reqs with
  | nil =>
    intro pm _
    exact ⟨⟨by simp [allocBlocks], by simp [allocBlocks]⟩, by simp [allocBlocks]⟩
  | cons n rest ih =>
    intro pm hInv
    unfold allocBlocks
    cases halloc : alloc_pages pm n with
    | mk op pm1 =>
      cases op with
      | none =>
        have hplan : pm1.ranges = pm.ranges := by
          unfold alloc_pages at halloc
          by_cases hz : n = 0
          · rw [if_pos hz] at halloc
            simp only [Prod.mk.injEq] at halloc
            rw [← halloc.2]
          · rw [if_neg hz] at halloc
            exact allocLoop_none_ranges _ _ pm pm1 halloc
        have hInv1 : PmmInv pm1 := by
          unfold PmmInv at hInv ⊢
          rw [hplan]
          exact hInv
        obtain ⟨hg, hcont⟩ := ih pm1 hInv1
        refine ⟨hg, ?_⟩
        intro b hb
        obtain ⟨r, hr, h1, h2⟩ := hcont b hb
        rw [hplan] at hr
        exact ⟨r, hr, h1, h2⟩
      | some p =>
        obtain ⟨c1, c2, c3, c4, c5, c6⟩ := alloc_pages_some pm n p pm1 hInv halloc
        obtain ⟨⟨hg1, hg2⟩, hcont⟩ := ih pm1 c1
        refine ⟨⟨?_, ?_⟩, ?_⟩
        · intro b hb
          rcases List.mem_cons.mp hb with hb1 | hb2
          · subst hb1
            exact ⟨c2, c3⟩
          · exact hg1 b hb2
        · rw [List.pairwise_cons]
          refine ⟨?_, hg2⟩
          intro b hb
          obtain ⟨q, hq, hqb, hqe⟩ := hcont b hb
          have hav := c6 q hq
          show blockDisjoint (p, n) b
          unfold blockDisjoint
          rcases hav with hl | hr2
          · left
            show p + n * PAGE_SIZE ≤ b.1
            omega
          · right
            show b.1 + b.2 * PAGE_SIZE ≤ p
            omega
        · intro b hb
          rcases List.mem_cons.mp hb with hb1 | hb2
          · subst hb1
            obtain ⟨r, hr, h1, h2⟩ := c4
            exact ⟨r, hr, h1, h2⟩
          · obtain ⟨q, hq, h1, h2⟩ := hcont b hb2
            obtain ⟨r, hr, h3, h4⟩ := c5 q hq
            exact ⟨r, hr, by omega, by omega⟩

/-- C6: after a successful `pmm::init`, every address returned by any
sequence of successful `alloc_pages(n)` calls (`alloc_frame` being
`alloc_pages 1`) is a multiple of PAGE_SIZE = 4096, the allocated range
[base, base + n*4096) never intersects [0, 0x100000), and the ranges of
any two distinct successful allocations are disjoint. -/
theorem pmm_alloc_good (regions : List MemoryRegion) (pm : Pmm)
    (stats : PmmStats) (reqs : List Nat)
    (h : pmm_init regions = some (pm, stats)) :
    goodBlocks (allocBlocks pm reqs) :=
  (allocBlocks_good_aux reqs pm (pmm_init_inv regions pm stats h)).1

/-- C6, witness: on the boot memory map, the request trace [1, 2, 1] yields
page-aligned, above-1MiB, pairwise disjoint blocks. -/
theorem pmm_alloc_good_witness : goodBlocks (allocBlocks bootPm [1, 2, 1]) :=
  pmm_alloc_good bootRegions bootPm ⟨0x7FF00000, 0x7FE00000, 1⟩ [1, 2, 1]
    (by decide)
